import Mathlib

/-!
Verification of `scripts/benchmark_summary.py` (Criterion benchmark summary
generator).  The Python source is shallowly embedded: Python dicts become
association lists (insertion-ordered, unique keys), floats become rationals,
strings become Lean `String`s, exceptions become `Except PyErr`, and the
filesystem tree that `parse_criterion_results` walks becomes an explicit
inductive tree.  All definitions are executable.
-/

/-- Exceptions that the embedded Python code can raise. -/
inductive PyErr where
  | keyError
  | typeError
  | jsonDecodeError
  | valueError
  | zeroDivisionError
deriving DecidableEq, Repr

/-- Python dict lookup `d[k]`/`k in d` on an insertion-ordered association
list (a parsed Python dict has unique keys, so first match = only match). -/
def lookupA {α : Type} : List (String × α) → String → Option α
  | [], _ => none
  | (k, v) :: rest, key => if k = key then some v else lookupA rest key

/-- Python dict assignment `d[k] = v`: replace the first binding of `k`, or
append a new binding at the end (dicts preserve insertion order). -/
def updateA {α : Type} : List (String × α) → String → α → List (String × α)
  | [], k, v => [(k, v)]
  | (k', v') :: rest, k, v =>
      if k' = k then (k, v) :: rest else (k', v') :: updateA rest k v

/-- Python `sep.join(parts)`. -/
def pyJoin (sep : String) : List String → String
  | [] => ""
  | [x] => x
  | x :: xs => x ++ sep ++ pyJoin sep xs

/-- Python `s.ljust(w)` (space fill). -/
def ljust (s : String) (w : Nat) : String :=
  s ++ ⟨List.replicate (w - s.length) ' '⟩

/-- Python `s.rjust(w)` (space fill). -/
def rjust (s : String) (w : Nat) : String :=
  ⟨List.replicate (w - s.length) ' '⟩ ++ s

/-- Python `s.startswith(p)`. -/
def pyStartswith (s p : String) : Bool :=
  p.data.isPrefixOf s.data

/-- Python `s.endswith(p)`. -/
def pyEndswith (s p : String) : Bool :=
  p.data.isSuffixOf s.data

/-- Whitespace characters stripped by Python `str.rstrip()` (ASCII range;
the inputs here contain only spaces and newlines). -/
def pyIsSpace (c : Char) : Bool :=
  c = ' ' || c = '\t' || c = '\n' || c = '\r' || c = '\x0b' || c = '\x0c'

/-- Kernel of `str.rstrip()`: drop trailing whitespace characters. -/
def rstripChars (cs : List Char) : List Char :=
  (cs.reverse.dropWhile pyIsSpace).reverse

/-- Python `s.rstrip()`. -/
def pyRstrip (s : String) : String :=
  ⟨rstripChars s.data⟩

/-- Python `s.replace("_", " ")` (single-character pattern, all occurrences). -/
def pyReplaceUnderscore (s : String) : String :=
  ⟨s.data.map (fun c => if c = '_' then ' ' else c)⟩

/-- Kernel of `s.replace(old, new, 1)`: replace the leftmost occurrence. -/
def replaceFirstChars (old new : List Char) : List Char → List Char
  | [] => if old.isPrefixOf ([] : List Char) then new else []
  | c :: rest =>
      if old.isPrefixOf (c :: rest) then new ++ (c :: rest).drop old.length
      else c :: replaceFirstChars old new rest

/-- Python `s.replace(old, new, 1)`. -/
def pyReplaceFirst (s old new : String) : String :=
  ⟨replaceFirstChars old.data new.data s.data⟩

/-- Code-point lexicographic comparison, as Python string `<=` used by
`sorted()`. -/
def lexLe : List Char → List Char → Bool
  | [], _ => true
  | _ :: _, [] => false
  | a :: as, b :: bs =>
      if a.toNat < b.toNat then true
      else if b.toNat < a.toNat then false
      else lexLe as bs

/-- Python string comparison `s <= t` (by code points). -/
def strLeB (s t : String) : Bool :=
  lexLe s.data t.data

/-- Stable insertion into a sorted list: keeps existing equal elements first,
matching the stability of Python `sorted()`. -/
def insSorted {α : Type} (le : α → α → Bool) (x : α) : List α → List α
  | [] => [x]
  | y :: ys => if le y x then y :: insSorted le x ys else x :: y :: ys

/-- Python `sorted(l)` (stable sort w.r.t. the boolean preorder `le`). -/
def pySorted {α : Type} (le : α → α → Bool) (l : List α) : List α :=
  l.foldl (fun acc x => insSorted le x acc) []

/-- First-occurrence deduplication; models iterating over `set(...)` up to
the (unspecified) enumeration order of a Python set. -/
def dedupFirst (l : List String) : List String :=
  l.foldl (fun acc x => if x ∈ acc then acc else acc ++ [x]) []

/-- Fuel-driven decimal digits of a natural number (most significant first). -/
def natReprAux : Nat → Nat → List Char
  | 0, _ => []
  | fuel + 1, n =>
      if n < 10 then [Nat.digitChar n]
      else natReprAux fuel (n / 10) ++ [Nat.digitChar (n % 10)]

/-- Python `str(n)` for a natural number. -/
def natRepr (n : Nat) : String :=
  ⟨natReprAux (n + 1) n⟩

/-- Left zero-padding to a minimum width, as in `f"{n:03d}"`. -/
def padLeftZeros (w : Nat) (s : String) : String :=
  ⟨List.replicate (w - s.length) '0' ++ s.data⟩

/-- Python `f"{n:03d}"`. -/
def pyFormat03 (n : Nat) : String :=
  padLeftZeros 3 (natRepr n)

/-- Numeric value of a list of decimal digit characters. -/
def digitsVal (cs : List Char) : Nat :=
  cs.foldl (fun a c => a * 10 + (c.toNat - 48)) 0

/-- Python `s.isdigit()` (ASCII digits; sufficient for the labels used here). -/
def pyIsDigit (s : String) : Bool :=
  !s.data.isEmpty && s.data.all Char.isDigit

/-- Python `int(s)` for the non-negative digit strings that occur here
(`split("-")` has already removed any sign; generated names are plain
digits); anything else raises `ValueError`. -/
def pyIntNat (s : String) : Except PyErr Nat :=
  if pyIsDigit s then .ok (digitsVal s.data) else .error .valueError

/-- Floor of a rational, computed directly on the normalized fraction. -/
def ratFloor (q : ℚ) : ℤ :=
  q.num.fdiv (q.den : ℤ)

/-- Round to the nearest integer, ties to even — the rounding used by
Python's fixed-point float formatting (idealized to exact rationals). -/
def roundHalfEven (q : ℚ) : ℤ :=
  let f := ratFloor q
  let r := q - (f : ℚ)
  if r < 1/2 then f
  else if 1/2 < r then f + 1
  else if f % 2 = 0 then f else f + 1

/-- Digits-only rendering used by `fmtFixed` once the value has been scaled
and rounded to a non-negative integer `n` of `prec` implied decimals. -/
def fmtFixedNat (prec : Nat) (n : Nat) : String :=
  if prec = 0 then natRepr n
  else natRepr (n / 10 ^ prec) ++ "." ++ padLeftZeros prec (natRepr (n % 10 ^ prec))

/-- Python `f"{x:.{prec}f}"` on the exact rational value `x`. -/
def fmtFixed (prec : Nat) (q : ℚ) : String :=
  if q < 0 then "-" ++ fmtFixedNat prec (roundHalfEven (-q * 10 ^ prec)).toNat
  else fmtFixedNat prec (roundHalfEven (q * 10 ^ prec)).toNat

/-- Python float division, which raises `ZeroDivisionError` on a zero
denominator. -/
def pyDiv (a b : ℚ) : Except PyErr ℚ :=
  if b = 0 then .error .zeroDivisionError else .ok (a / b)

/-! ### ASCII case mapping (Python `str.title()` on the ASCII inputs here) -/

/-- Test for an ASCII lowercase letter. -/
def isLowerA (c : Char) : Bool := 97 ≤ c.toNat && c.toNat ≤ 122

/-- Test for an ASCII uppercase letter. -/
def isUpperA (c : Char) : Bool := 65 ≤ c.toNat && c.toNat ≤ 90

/-- Test for an ASCII letter (a "cased" character of the inputs here). -/
def asciiAlpha (c : Char) : Bool := isLowerA c || isUpperA c

/-- ASCII uppercasing of a character. -/
def toUpperA (c : Char) : Char :=
  if isLowerA c then Char.ofNat (c.toNat - 32) else c

/-- ASCII lowercasing of a character. -/
def toLowerA (c : Char) : Char :=
  if isUpperA c then Char.ofNat (c.toNat + 32) else c

/-- Kernel of Python `str.title()`: uppercase every letter that follows a
non-letter (or starts the string), lowercase every other letter.  The flag
records whether the previous character was cased. -/
def titleChars : Bool → List Char → List Char
  | _, [] => []
  | prevAlpha, c :: rest =>
      if asciiAlpha c then
        (if prevAlpha then toLowerA c else toUpperA c) :: titleChars true rest
      else
        c :: titleChars false rest

/-- Python `s.title()`. -/
def pyTitle (s : String) : String := ⟨titleChars false s.data⟩

/-! ### Embedding of `scripts/benchmark_summary.py` -/

/-- Normalized in-memory results: benchmark name → (parameter label → mean
nanoseconds), as an insertion-ordered Python dict of dicts. -/
abbrev ResultSet := List (String × List (String × ℚ))

/-- Embeds `format_time` (lines 53-65). -/
def format_time (ns : ℚ) : String :=
  if ns < 1000 then fmtFixed 0 ns ++ " ns"
  else if ns < 1000000 then fmtFixed 2 (ns / 1000) ++ " µs"
  else if ns < 1000000000 then fmtFixed 2 (ns / 1000000) ++ " ms"
  else fmtFixed 2 (ns / 1000000000) ++ " s"

/-- The `replacements` table of `format_benchmark_name` (lines 74-79), in
dict insertion order. -/
def replacements : List (String × String) :=
  [("helix index", "Helix Index"),
   ("git status", "Git Status"),
   ("query staged", "Query Staged"),
   ("index read", "Index Read")]

/-- The `for old, new in replacements.items()` loop of
`format_benchmark_name` (lines 81-84): first prefix match wins, then break. -/
def applyReplacements : List (String × String) → String → String
  | [], display => display
  | (old, new) :: rest, display =>
      if pyStartswith display old then pyReplaceFirst display old new
      else applyReplacements rest display

/-- Embeds `format_benchmark_name` (lines 68-86). -/
def format_benchmark_name (name : String) : String :=
  let display := pyReplaceUnderscore name
  pyTitle (applyReplacements replacements display)

/-- Sort key for parameter labels (line 99): `int(x) if x.isdigit() else 0`. -/
def paramKeyNat (s : String) : Nat :=
  if pyIsDigit s then digitsVal s.data else 0

/-- Boolean preorder used by `sorted(..., key=paramKeyNat)`. -/
def paramLe (a b : String) : Bool :=
  decide (paramKeyNat a ≤ paramKeyNat b)

/-- Rendering of one row of the all-operations table (lines 138-147): first
column left-justified, all value columns right-justified. -/
def renderAlignedRow (col_widths : List Nat) (row : List String) : String :=
  "| " ++
    pyJoin " | "
      (((row.zip col_widths).enum).map
        (fun ic => if 0 < ic.1 then rjust ic.2.1 ic.2.2 else ljust ic.2.1 ic.2.2)) ++
  " |"

/-- Embeds `build_aligned_table` (lines 89-149). -/
def build_aligned_table (results : ResultSet) : String :=
  let all_params :=
    pySorted paramLe (dedupFirst ((results.map (fun br => br.2.map Prod.fst)).flatten))
  let rows :=
    (pySorted strLeB (results.map Prod.fst)).map (fun bench_name =>
      let bench_results := (lookupA results bench_name).getD []
      format_benchmark_name bench_name ::
        all_params.map (fun param =>
          match lookupA bench_results param with
          | some t => format_time t
          | none => "N/A"))
  let headers := "Benchmark" :: all_params.map (fun p => p ++ " files")
  let col_widths :=
    rows.foldl (fun ws row => List.zipWith max ws (row.map String.length))
      (headers.map String.length)
  let header_line :=
    "| " ++ pyJoin " | " ((headers.zip col_widths).map (fun hw => ljust hw.1 hw.2)) ++ " |"
  let separator :=
    "|" ++ pyJoin "|" (col_widths.map (fun w => (⟨List.replicate (w + 2) '-'⟩ : String))) ++ "|"
  let row_lines := rows.map (renderAlignedRow col_widths)
  pyJoin "\n" (header_line :: separator :: row_lines)

/-- Embeds `calculate_speedup` (lines 157-167).  Python float division
raises `ZeroDivisionError`, so the result is fallible: the `1 / speedup`
in the slower-branch raises when `speedup == 0`. -/
def calculate_speedup (git_time helix_time : ℚ) : Except PyErr String :=
  if helix_time = 0 then .ok "∞"
  else do
    let speedup ← pyDiv git_time helix_time
    if 1 < speedup then pure (fmtFixed 1 speedup ++ "x faster")
    else if speedup < 1 then do
      let inv ← pyDiv 1 speedup
      pure (fmtFixed 1 inv ++ "x slower")
    else pure "same"

/-- Accumulates the comparison rows for one baseline parameter
(lines 188-215 loop body). -/
def comparisonRowsFor (git_baseline helix_first helix_cached : List (String × ℚ))
    (acc : List (List String)) (param : String) :
    Except PyErr (List (List String)) :=
  if (lookupA git_baseline param).isNone then pure acc
  else do
    let git_time := (lookupA git_baseline param).getD 0
    let acc := acc ++ [["Git status (" ++ param ++ " files)", format_time git_time, "-", "-"]]
    let acc ← match lookupA helix_first param with
      | some helix_time => do
          let speedup ← calculate_speedup git_time helix_time
          pure (acc ++ [["  Helix (first run)", format_time helix_time, speedup, ""]])
      | none => pure acc
    let acc ← match lookupA helix_cached param with
      | some helix_time => do
          let speedup ← calculate_speedup git_time helix_time
          pure (acc ++ [["  Helix (cached)", format_time helix_time, speedup, "⚡"]])
      | none => pure acc
    pure (acc ++ [["", "", "", ""]])

/-- Embeds `build_comparison_table` (lines 170-242). -/
def build_comparison_table (results : ResultSet) : Except PyErr String :=
  let git_baseline := (lookupA results "git_status_baseline").getD []
  let helix_cached := (lookupA results "helix_index_cached_run").getD []
  let helix_first := (lookupA results "helix_index_first_run").getD []
  if git_baseline.isEmpty || helix_cached.isEmpty then .ok ""
  else do
    let all_params := pySorted paramLe (git_baseline.map Prod.fst)
    let comparison_rows ←
      all_params.foldlM (comparisonRowsFor git_baseline helix_first helix_cached) []
    let headers := ["Operation", "Time", "vs Git", ""]
    let col_widths :=
      comparison_rows.foldl (fun ws row => List.zipWith max ws (row.map String.length))
        (headers.map String.length)
    let header_line :=
      "| " ++ pyJoin " | " ((headers.zip col_widths).map (fun hw => ljust hw.1 hw.2)) ++ " |"
    let separator :=
      "|" ++ pyJoin "|" (col_widths.map (fun w => (⟨List.replicate (w + 2) '-'⟩ : String))) ++ "|"
    let body_rows := comparison_rows.filter (fun row => !row.all (· = ""))
    let row_lines :=
      body_rows.map (fun row =>
        "| " ++ pyJoin " | " ((row.zip col_widths).map (fun cw => ljust cw.1 cw.2)) ++ " |")
    pure (pyJoin "\n" (["## Performance Comparison\n", header_line, separator] ++ row_lines))

/-- The `speedups` list of `build_summary_stats` (lines 266-272): per-parameter
`git_time / helix_time` over the baseline's parameters that are also in the
cached family, skipping non-positive cached times. -/
def summarySpeedups (git_baseline helix_cached : List (String × ℚ)) : List ℚ :=
  (git_baseline.filter (fun p =>
      match lookupA helix_cached p.1 with
      | some helix_time => decide (0 < helix_time)
      | none => false)).map
    (fun p => p.2 / (lookupA helix_cached p.1).getD 0)

/-- Embeds `build_summary_stats` (lines 252-291).  Every division is guarded
by a non-emptiness or positivity test in the source, so the function is
total. -/
def build_summary_stats (results : ResultSet) : String :=
  let git_baseline := (lookupA results "git_status_baseline").getD []
  let helix_cached := (lookupA results "helix_index_cached_run").getD []
  let query_staged := (lookupA results "query_staged").getD []
  if git_baseline.isEmpty || helix_cached.isEmpty then ""
  else
    let lines := ["## Summary Statistics\n"]
    let speedups := summarySpeedups git_baseline helix_cached
    let lines :=
      if speedups.isEmpty then lines
      else lines ++
        ["**Average speedup (cached):** " ++
          fmtFixed 1 (speedups.sum / (speedups.length : ℚ)) ++ "x faster than git"]
    let lines :=
      if query_staged.isEmpty then lines
      else lines ++
        ["**Average query time:** " ++
          format_time ((query_staged.map Prod.snd).sum / (query_staged.length : ℚ))]
    let helix_open := (lookupA results "helix_index_open").getD []
    let lines :=
      if helix_open.isEmpty then lines
      else lines ++
        ["**Average index load time:** " ++
          format_time ((helix_open.map Prod.snd).sum / (helix_open.length : ℚ))]
    pyJoin "\n" lines

/-- Assembles and trims the archive file content (`main`, lines 320-323 and
353-359): sections joined by a blank line, trailing whitespace stripped,
exactly one final newline appended. -/
def archiveContent (results : ResultSet) : Except PyErr String := do
  let title := "# Helix Benchmark Results\n"
  let aligned_section := "## All Operations\n\n" ++ build_aligned_table results
  let comparison_section ← build_comparison_table results
  let summary_section := build_summary_stats results
  let full_md :=
    [title, aligned_section] ++
      (if comparison_section = "" then [] else ["\n" ++ comparison_section]) ++
      (if summary_section = "" then [] else ["\n" ++ summary_section])
  pure (pyRstrip (pyJoin "\n\n" full_md) ++ "\n")

/-! ### Result Collector (`parse_criterion_results`, lines 14-50) -/

/-- Parsed JSON values, as produced by `json.load`.  An `obj` stands for a
parsed Python dict, so its keys are distinct. -/
inductive Json where
  | null
  | bool (b : Bool)
  | num (q : ℚ)
  | str (s : String)
  | arr (items : List Json)
  | obj (fields : List (String × Json))

/-- State of the `new/estimates.json` leaf below one parameter directory:
missing file, file that fails `json.load`, or a parsed value. -/
inductive EstimatesFile where
  | absent
  | decodeError
  | content (j : Json)

/-- Second-level entry of the criterion tree: the non-directory case is
skipped by `if not param_dir.is_dir(): continue` (line 27). -/
inductive ParamEntry where
  | file (pname : String)
  | dir (pname : String) (estimates : EstimatesFile)

/-- First-level entry of the criterion tree: the non-directory case is
skipped by `if not bench_dir.is_dir(): continue` (line 20). -/
inductive BenchEntry where
  | file (bname : String)
  | dir (bname : String) (params : List ParamEntry)

/-- Benchmark name → (parameter label → recorded mean), with the recorded
mean kept as the raw `Json` value found at `data["mean"]["point_estimate"]`
(the source stores it without any validation). -/
abbrev JResultSet := List (String × List (String × Json))

/-- Python subscript `data[key]`: `KeyError` for a missing dict key,
`TypeError` when subscripting a non-dict with a string. -/
def jsonIndex (j : Json) (key : String) : Except PyErr Json :=
  match j with
  | .obj fields =>
      match lookupA fields key with
      | some v => .ok v
      | none => .error .keyError
  | _ => .error .typeError

/-- Lines 42-45: ensure `results[bench_name]` exists, then set
`results[bench_name][param] = mean_ns`. -/
def recordResult (results : JResultSet) (bench pname : String) (v : Json) : JResultSet :=
  let results1 :=
    if (lookupA results bench).isSome then results else updateA results bench []
  updateA results1 bench (updateA ((lookupA results1 bench).getD []) pname v)

/-- Body of the inner loop of `parse_criterion_results` (lines 26-48): the
`try` block reads and indexes the estimates record, the `except` clause
catches exactly `json.JSONDecodeError` and `KeyError`; any other exception
(notably `TypeError` from subscripting a non-dict) propagates. -/
def processParam (bench : String) (results : JResultSet) (p : ParamEntry) :
    Except PyErr JResultSet :=
  match p with
  | .file _ => .ok results
  | .dir pname est =>
      match est with
      | .absent => .ok results
      | .decodeError => .ok results
      | .content j =>
          match jsonIndex j "mean" with
          | .error .keyError => .ok results
          | .error e => .error e
          | .ok m =>
              match jsonIndex m "point_estimate" with
              | .error .keyError => .ok results
              | .error e => .error e
              | .ok v => .ok (recordResult results bench pname v)

/-- Body of the outer loop of `parse_criterion_results` (lines 19-48). -/
def processBench (results : JResultSet) (b : BenchEntry) : Except PyErr JResultSet :=
  match b with
  | .file _ => .ok results
  | .dir bname params => params.foldlM (processParam bname) results

/-- Embeds `parse_criterion_results` (lines 14-50) on a readable root whose
first-level entries are `entries`.  An uncaught exception from a leaf makes
the whole call raise, modelled by `Except.error`. -/
def parse_criterion_results (entries : List BenchEntry) : Except PyErr JResultSet :=
  entries.foldlM processBench []

/-! ### Archive versioning (`main`, lines 335-351) -/

/-- Python `pathlib.Path.stem`: the name with its final extension removed;
a leading or trailing dot does not start an extension. -/
def pathStem (s : String) : String :=
  let rev := s.data.reverse
  if rev.takeWhile (· ≠ '.') = [] then s
  else
    match rev.dropWhile (· ≠ '.') with
    | [] => s
    | _ :: stemRev => if stemRev = [] then s else ⟨stemRev.reverse⟩

/-- Kernel of Python `str.split(sep)` for a one-character separator. -/
def splitOnChar (sep : Char) : List Char → List (List Char)
  | [] => [[]]
  | c :: rest =>
      let r := splitOnChar sep rest
      if c = sep then [] :: r
      else
        match r with
        | [] => [[c]]
        | h :: t => (c :: h) :: t

/-- Python `s.split("-")`. -/
def pySplitOnDash (s : String) : List String :=
  (splitOnChar '-' s.data).map (fun cs => (⟨cs⟩ : String))

/-- Match of the glob pattern `f"{today_str}-*.md"` (line 341) against a
file name in the archive directory. -/
def archiveGlobMatch (today name : String) : Bool :=
  pyStartswith name (today ++ "-") && pyEndswith name ".md"

/-- Embeds the versioning logic of `main` (lines 340-351): sort the matching
names, read the trailing `-`-separated field of the stem of the last one as
an integer and add one, else start at 1; the chosen counter is rendered with
`f"{next_counter:03d}"`. -/
def findNextArchive (today : String) (listing : List String) : Except PyErr String :=
  let existing := pySorted strLeB (listing.filter (archiveGlobMatch today))
  match existing.getLast? with
  | none => .ok (today ++ "-" ++ pyFormat03 1 ++ ".md")
  | some last =>
      match pyIntNat ((pySplitOnDash (pathStem last)).getLastD "") with
      | .ok n => .ok (today ++ "-" ++ pyFormat03 (n + 1) ++ ".md")
      | .error e => .error e

/-- Canonical archive file name written by the program for date `today` and
counter `n`. -/
def canonicalArchiveName (today : String) (n : Nat) : String :=
  today ++ "-" ++ pyFormat03 n ++ ".md"

/-! ### Association-list lemmas -/

theorem lookupA_mem {α : Type} {l : List (String × α)} {k : String} {v : α}
    (h : lookupA l k = some v) : (k, v) ∈ l := by
  induction l with
  | nil => simp [lookupA] at h
  | cons p rest ih =>
      obtain ⟨k', v'⟩ := p
      by_cases hk : k' = k
      · subst hk
        simp [lookupA] at h
        simp [h]
      · simp [lookupA, hk] at h
        exact List.mem_cons_of_mem _ (ih h)

theorem mem_updateA {α : Type} {l : List (String × α)} {k : String} {v : α} {x : String × α}
    (h : x ∈ updateA l k v) : x = (k, v) ∨ x ∈ l := by
  induction l with
  | nil => simpa [updateA] using h
  | cons p rest ih =>
      obtain ⟨k', v'⟩ := p
      by_cases hk : k' = k
      · subst hk
        simp [updateA] at h
        rcases h with h | h
        · exact Or.inl h
        · exact Or.inr (List.mem_cons_of_mem _ h)
      · simp [updateA, hk] at h
        rcases h with h | h
        · exact Or.inr (by simp [h])
        · rcases ih h with h' | h'
          · exact Or.inl h'
          · exact Or.inr (List.mem_cons_of_mem _ h')

theorem updateA_ne_nil {α : Type} (l : List (String × α)) (k : String) (v : α) :
    updateA l k v ≠ [] := by
  cases l with
  | nil => simp [updateA]
  | cons p rest =>
      obtain ⟨k', v'⟩ := p
      by_cases hk : k' = k <;> simp [updateA, hk]

theorem lookupA_none_keys {α : Type} {l : List (String × α)} {k : String}
    (h : lookupA l k = none) : ∀ p ∈ l, p.1 ≠ k := by
  induction l with
  | nil => simp
  | cons p rest ih =>
      obtain ⟨k', v'⟩ := p
      by_cases hk : k' = k
      · simp [lookupA, hk] at h
      · simp [lookupA, hk] at h
        intro q hq
        rcases List.mem_cons.mp hq with hq | hq
        · simp [hq, hk]
        · exact ih h q hq

theorem updateA_of_none {α : Type} {l : List (String × α)} {k : String} (v : α)
    (h : lookupA l k = none) : updateA l k v = l ++ [(k, v)] := by
  induction l with
  | nil => simp [updateA]
  | cons p rest ih =>
      obtain ⟨k', v'⟩ := p
      by_cases hk : k' = k
      · simp [lookupA, hk] at h
      · simp [lookupA, hk] at h
        simp [updateA, hk, ih h]

theorem lookupA_append_none {α : Type} {l : List (String × α)} {k : String} (v : α)
    (h : lookupA l k = none) : lookupA (l ++ [(k, v)]) k = some v := by
  induction l with
  | nil => simp [lookupA]
  | cons p rest ih =>
      obtain ⟨k', v'⟩ := p
      by_cases hk : k' = k
      · simp [lookupA, hk] at h
      · simp [lookupA, hk] at h ⊢
        exact ih h

theorem updateA_append_of_none {α : Type} {l : List (String × α)} {k : String} (x v : α)
    (h : lookupA l k = none) : updateA (l ++ [(k, x)]) k v = l ++ [(k, v)] := by
  induction l with
  | nil => simp [updateA]
  | cons p rest ih =>
      obtain ⟨k', v'⟩ := p
      by_cases hk : k' = k
      · simp [lookupA, hk] at h
      · simp [lookupA, hk] at h
        simp [updateA, hk, ih h]

theorem recordResult_eq (results : JResultSet) (bench pname : String) (v : Json) :
    recordResult results bench pname v =
      match lookupA results bench with
      | some inner => updateA results bench (updateA inner pname v)
      | none => results ++ [(bench, [(pname, v)])] := by
  unfold recordResult
  cases h : lookupA results bench with
  | some inner => simp [h]
  | none =>
      simp [h, updateA_of_none _ h, lookupA_append_none _ h]
      exact updateA_append_of_none _ _ h

/-! ### String-length helpers -/

theorem str_eq_empty_of_length_zero {s : String} (h : s.length = 0) : s = "" := by
  cases s with
  | mk data =>
      cases data with
      | nil => rfl
      | cons c cs => simp [String.length] at h

theorem pyJoin_cons_exists (sep a : String) (l : List String) :
    ∃ t, pyJoin sep (a :: l) = a ++ t := by
  cases l with
  | nil => exact ⟨"", by simp [pyJoin]⟩
  | cons b bs =>
      exact ⟨sep ++ pyJoin sep (b :: bs), by simp [pyJoin, String.append_assoc]⟩

theorem pyJoin_cons_ne_empty (sep a : String) (l : List String) (ha : a.length ≠ 0) :
    pyJoin sep (a :: l) ≠ "" := by
  obtain ⟨t, ht⟩ := pyJoin_cons_exists sep a l
  rw [ht]
  intro h
  have hlen := congrArg String.length h
  rw [String.length_append] at hlen
  simp at hlen
  exact ha hlen.1

/-- Claim C5: whenever the baseline family (`git_status_baseline`) or the
cached-run family (`helix_index_cached_run`) is absent from the ResultSet,
`build_comparison_table` returns the empty string (normally, without
raising), and `build_summary_stats` likewise returns the empty string,
whatever else the ResultSet contains. -/
theorem C5_missing_family_empty_sections (results : ResultSet)
    (h : lookupA results "git_status_baseline" = none ∨
         lookupA results "helix_index_cached_run" = none) :
    build_comparison_table results = .ok "" ∧ build_summary_stats results = "" := by
  rcases h with h | h <;>
    exact ⟨by simp [build_comparison_table, h], by simp [build_summary_stats, h]⟩

/-- Witness for C5 at a concrete ResultSet that contains neither required
family. -/
theorem C5_witness :
    build_comparison_table [("x", [("1", (1 : ℚ))])] = .ok "" ∧
    build_summary_stats [("x", [("1", (1 : ℚ))])] = "" :=
  C5_missing_family_empty_sections [("x", [("1", (1 : ℚ))])]
    (Or.inl (by with_unfolding_all rfl))

/-- Counterexample to claim C8 as stated: on the empty ResultSet,
`build_aligned_table` does not return the empty string — it still renders
the header and separator rows. -/
theorem C8_counterexample :
    build_aligned_table [] = "| Benchmark |\n|-----------|" ∧
    build_aligned_table [] ≠ "" := by
  constructor
  · with_unfolding_all rfl
  · with_unfolding_all decide

/-- Claim C8, amended: `build_aligned_table` never returns the empty string;
on every ResultSet (the empty one included) its output starts with the
header row and is therefore non-empty. -/
theorem C8_amended_table_never_empty (results : ResultSet) :
    build_aligned_table results ≠ "" := by
  unfold build_aligned_table
  apply pyJoin_cons_ne_empty
  intro h
  rw [String.length_append, String.length_append] at h
  have h2 : ("| " : String).length = 2 := rfl
  omega

/-- Reduction of the `Except` monad bind on a success value. -/
theorem except_bind_ok {e a b : Type} (x : a) (f : a → Except e b) :
    (Except.ok x : Except e a) >>= f = f x := rfl

/-- Reduction of the `Except` monad bind on an error value. -/
theorem except_bind_error {e a b : Type} (x : e) (f : a → Except e b) :
    (Except.error x : Except e a) >>= f = Except.error x := rfl

/-- Reduction of the `Except` functor map on a success value. -/
theorem except_map_ok {e a b : Type} (f : a → b) (x : a) :
    f <$> (Except.ok x : Except e a) = Except.ok (f x) := rfl

/-- Counterexample to claim C3 as stated: with non-negative baseline time 0
and candidate time 5 the ratio is 0 < 1, but `calculate_speedup` does not
return a "slower" annotation — the `1 / speedup` in its slower-branch
raises `ZeroDivisionError`. -/
theorem C3_counterexample :
    calculate_speedup 0 5 = .error .zeroDivisionError := by
  with_unfolding_all rfl

/-- Claim C3, amended to positive baseline times (the only change the
counterexample forces: a zero baseline with non-zero candidate raises
`ZeroDivisionError` instead of returning).  For zero candidate time the
result is "∞"; otherwise, with ratio = baseline/candidate: ratio > 1 gives
the ratio rounded to one decimal plus "x faster", ratio < 1 gives 1/ratio
rounded to one decimal plus "x slower", ratio = 1 gives "same".  The
concrete instances named by the claim are included. -/
theorem C3_amended_speedup_annotation :
    (∀ g h : ℚ, h = 0 → calculate_speedup g h = .ok "∞") ∧
    (∀ g h : ℚ, 0 < g → 0 < h → 1 < g / h →
      calculate_speedup g h = .ok (fmtFixed 1 (g / h) ++ "x faster")) ∧
    (∀ g h : ℚ, 0 < g → 0 < h → g / h < 1 →
      calculate_speedup g h = .ok (fmtFixed 1 (1 / (g / h)) ++ "x slower")) ∧
    (∀ g h : ℚ, 0 < h → g / h = 1 → calculate_speedup g h = .ok "same") ∧
    calculate_speedup 100 50 = .ok "2.0x faster" ∧
    calculate_speedup 50 100 = .ok "2.0x slower" ∧
    calculate_speedup 7 7 = .ok "same" ∧
    calculate_speedup 100 0 = .ok "∞" := by
  refine ⟨?_, ?_, ?_, ?_, ?_, ?_, ?_, ?_⟩
  · intro g h hz
    simp [calculate_speedup, hz]
  · intro g h hg hh hr
    have hz : ¬(h = 0) := ne_of_gt hh
    simp only [calculate_speedup, pyDiv, if_neg hz, except_bind_ok, if_pos hr]
    rfl
  · intro g h hg hh hr
    have hz : ¬(h = 0) := ne_of_gt hh
    have hr' : ¬(1 < g / h) := not_lt.mpr (le_of_lt hr)
    have hnz : ¬(g / h = 0) := ne_of_gt (div_pos hg hh)
    simp only [calculate_speedup, pyDiv, if_neg hz, except_bind_ok, if_neg hr',
      if_pos hr, if_neg hnz, except_map_ok]
    rw [one_div]
    rfl
  · intro g h hh hr
    have hz : ¬(h = 0) := ne_of_gt hh
    simp only [calculate_speedup, pyDiv, if_neg hz, except_bind_ok, hr]
    norm_num
    rfl
  · with_unfolding_all rfl
  · with_unfolding_all rfl
  · with_unfolding_all rfl
  · with_unfolding_all rfl

/-- Witness for C3: the amended theorem applied at the concrete input
baseline 300, candidate 200 (ratio 1.5). -/
theorem C3_witness :
    calculate_speedup 300 200 = .ok (fmtFixed 1 ((300 : ℚ) / 200) ++ "x faster") :=
  C3_amended_speedup_annotation.2.1 300 200 (by norm_num) (by norm_num) (by norm_num)

/-- Spec-side description of the parameters that enter the average-speedup
figure: the baseline family's parameter labels that are also present in the
cached family, excluding labels whose cached time is not positive. -/
def speedupParams (git_baseline helix_cached : List (String × ℚ)) : List String :=
  (git_baseline.map Prod.fst).filter (fun k =>
    match lookupA helix_cached k with
    | some v => decide (0 < v)
    | none => false)

theorem lookupA_of_mem_nodup {α : Type} {l : List (String × α)}
    (hnd : (l.map Prod.fst).Nodup) {p : String × α} (hp : p ∈ l) :
    lookupA l p.1 = some p.2 := by
  induction l with
  | nil => simp at hp
  | cons q rest ih =>
      obtain ⟨qk, qv⟩ := q
      have hnd2 : (∀ x : α, (qk, x) ∉ rest) ∧ (rest.map Prod.fst).Nodup := by
        simpa using hnd
      rcases List.mem_cons.mp hp with hp | hp
      · subst hp
        simp [lookupA]
      · have hne : qk ≠ p.1 := by
          intro he
          exact hnd2.1 p.2 (by rw [he]; simpa using hp)
        simp [lookupA, hne]
        exact ih hnd2.2 hp

theorem filter_of_map {α β : Type} (f : α → β) (q : β → Bool) (l : List α) :
    (l.map f).filter q = (l.filter (fun a => q (f a))).map f := by
  induction l with
  | nil => rfl
  | cons a rest ih =>
      by_cases h : q (f a) = true <;> simp [List.filter_cons, h, ih]

/-- Claim C4: the average-speedup figure of the Summary Builder is the
arithmetic mean of the per-parameter baseline/cached ratios, taken over
exactly the baseline parameters also present in the cached family with
zero-valued cached times excluded (first conjunct: the ratio list whose
sum `build_summary_stats` divides by its length is exactly the ratios
indexed by `speedupParams`); and on the ResultSet with only baseline
`{10:100, 100:1000}` and cached `{10:50, 100:200}` the summary reports an
average speedup of 3.5x (second conjunct). -/
theorem C4_average_speedup
    (git_baseline helix_cached : List (String × ℚ))
    (hnd : (git_baseline.map Prod.fst).Nodup) :
    summarySpeedups git_baseline helix_cached =
      (speedupParams git_baseline helix_cached).map
        (fun k => (lookupA git_baseline k).getD 0 / (lookupA helix_cached k).getD 0) ∧
    build_summary_stats
        [("git_status_baseline", [("10", (100 : ℚ)), ("100", 1000)]),
         ("helix_index_cached_run", [("10", (50 : ℚ)), ("100", 200)])] =
      "## Summary Statistics\n\n**Average speedup (cached):** 3.5x faster than git" := by
  constructor
  · rw [speedupParams, filter_of_map, List.map_map]
    unfold summarySpeedups
    apply List.map_congr_left
    intro p hp
    have hmem : p ∈ git_baseline := List.mem_of_mem_filter hp
    have hl : lookupA git_baseline p.1 = some p.2 := lookupA_of_mem_nodup hnd hmem
    simp [Function.comp, hl]
  · with_unfolding_all rfl

/-- Witness for C4 at a concrete baseline/cached pair. -/
theorem C4_witness :
    summarySpeedups [("10", (100 : ℚ)), ("100", 1000)] [("10", (50 : ℚ)), ("100", 200)] =
      (speedupParams [("10", (100 : ℚ)), ("100", 1000)] [("10", (50 : ℚ)), ("100", 200)]).map
        (fun k => (lookupA [("10", (100 : ℚ)), ("100", 1000)] k).getD 0 /
          (lookupA [("10", (50 : ℚ)), ("100", 200)] k).getD 0) :=
  (C4_average_speedup [("10", (100 : ℚ)), ("100", 1000)] [("10", (50 : ℚ)), ("100", 200)]
    (by decide)).1

/-! ### Result Collector claims -/

/-- Shape condition under which the leaf indexing chain
`data["mean"]["point_estimate"]` cannot raise `TypeError`: the decoded
record is an object, and its `"mean"` member (when present) is an object. -/
def contentSafe : Json → Bool
  | .obj fields =>
      match lookupA fields "mean" with
      | some (.obj _) => true
      | some _ => false
      | none => true
  | _ => false

/-- Leaf-wise no-`TypeError` condition for a parameter entry. -/
def paramSafe : ParamEntry → Bool
  | .file _ => true
  | .dir _ .absent => true
  | .dir _ .decodeError => true
  | .dir _ (.content j) => contentSafe j

/-- Bench-wise no-`TypeError` condition. -/
def benchSafe : BenchEntry → Bool
  | .file _ => true
  | .dir _ params => params.all paramSafe

/-- Tree-wise no-`TypeError` condition. -/
def treeSafe (entries : List BenchEntry) : Bool := entries.all benchSafe

theorem processParam_ok_of_safe (bench : String) (results : JResultSet)
    (p : ParamEntry) (hs : paramSafe p = true) :
    ∃ results', processParam bench results p = .ok results' := by
  cases p with
  | file pname => exact ⟨results, rfl⟩
  | dir pname est =>
      cases est with
      | absent => exact ⟨results, rfl⟩
      | decodeError => exact ⟨results, rfl⟩
      | content j =>
          cases j with
          | obj fields =>
              simp only [paramSafe, contentSafe] at hs
              cases hm : lookupA fields "mean" with
              | none =>
                  refine ⟨results, ?_⟩
                  simp [processParam, jsonIndex, hm]
              | some m =>
                  rw [hm] at hs
                  cases m with
                  | obj mfields =>
                      cases hp : lookupA mfields "point_estimate" with
                      | none =>
                          refine ⟨results, ?_⟩
                          simp [processParam, jsonIndex, hm, hp]
                      | some v =>
                          refine ⟨recordResult results bench pname v, ?_⟩
                          simp [processParam, jsonIndex, hm, hp]
                  | null => simp at hs
                  | bool b => simp at hs
                  | num q => simp at hs
                  | str s => simp at hs
                  | arr items => simp at hs
          | null => simp [paramSafe, contentSafe] at hs
          | bool b => simp [paramSafe, contentSafe] at hs
          | num q => simp [paramSafe, contentSafe] at hs
          | str s => simp [paramSafe, contentSafe] at hs
          | arr items => simp [paramSafe, contentSafe] at hs

theorem foldParams_ok_of_safe (bench : String) (params : List ParamEntry) :
    ∀ results : JResultSet, (∀ p ∈ params, paramSafe p = true) →
      ∃ results', params.foldlM (processParam bench) results = .ok results' := by
  induction params with
  | nil => exact fun results _ => ⟨results, rfl⟩
  | cons p rest ih =>
      intro results hs
      obtain ⟨r1, hr1⟩ := processParam_ok_of_safe bench results p (hs p (by simp))
      obtain ⟨r2, hr2⟩ := ih r1 (fun q hq => hs q (List.mem_cons_of_mem _ hq))
      exact ⟨r2, by rw [List.foldlM_cons, hr1, except_bind_ok, hr2]⟩

theorem foldBenches_ok_of_safe (entries : List BenchEntry) :
    ∀ results : JResultSet, (∀ b ∈ entries, benchSafe b = true) →
      ∃ results', entries.foldlM processBench results = .ok results' := by
  induction entries with
  | nil => exact fun results _ => ⟨results, rfl⟩
  | cons b rest ih =>
      intro results hs
      have hb : benchSafe b = true := hs b (by simp)
      obtain ⟨r1, hr1⟩ : ∃ r1, processBench results b = .ok r1 := by
        cases b with
        | file bname => exact ⟨results, rfl⟩
        | dir bname params =>
            simp only [benchSafe, List.all_eq_true] at hb
            exact foldParams_ok_of_safe bname params results hb
      obtain ⟨r2, hr2⟩ := ih r1 (fun q hq => hs q (List.mem_cons_of_mem _ hq))
      exact ⟨r2, by rw [List.foldlM_cons, hr1, except_bind_ok, hr2]⟩

/-- Counterexample to claim C1 as stated: a readable tree whose single leaf
record is present and decodes fine but is malformed (the JSON number `5`
instead of an object) is not silently skipped — `parse_criterion_results`
raises `TypeError` (uncaught, since the source catches only
`json.JSONDecodeError` and `KeyError`). -/
theorem C1_counterexample :
    parse_criterion_results
        [.dir "b" [.dir "10" (.content (Json.num 5))]] = .error .typeError := by
  with_unfolding_all rfl

/-- Claim C1, amended: with a readable root, `parse_criterion_results`
raises no exception provided every present, decodable leaf record is a JSON
object whose `"mean"` member (if any) is an object; leaves whose record is
absent, fails to decode, or lacks the `"mean"`/`"point_estimate"` key are
silently skipped (the state is returned unchanged and iteration continues).
A record of any other decoded shape raises an uncaught `TypeError`. -/
theorem C1_amended_no_raise :
    (∀ entries : List BenchEntry, treeSafe entries = true →
      ∃ results, parse_criterion_results entries = .ok results) ∧
    (∀ (bench pname : String) (results : JResultSet),
      processParam bench results (.dir pname .absent) = .ok results) ∧
    (∀ (bench pname : String) (results : JResultSet),
      processParam bench results (.dir pname .decodeError) = .ok results) ∧
    (∀ (bench pname : String) (results : JResultSet) (j : Json),
      jsonIndex j "mean" = .error .keyError →
      processParam bench results (.dir pname (.content j)) = .ok results) := by
  refine ⟨?_, fun _ _ _ => rfl, fun _ _ _ => rfl, ?_⟩
  · intro entries hs
    simp only [treeSafe, List.all_eq_true] at hs
    exact foldBenches_ok_of_safe entries [] hs
  · intro bench pname results j hj
    simp [processParam, hj]

/-- Witness for C1: the amended theorem applied to a concrete safe tree
containing one absent leaf, one undecodable leaf, one record lacking the
mean field, and one well-formed record. -/
theorem C1_witness :
    ∃ results,
      parse_criterion_results
          [.dir "b"
            [.dir "10" .absent,
             .dir "100" .decodeError,
             .dir "1000" (.content (Json.obj [])),
             .dir "5000" (.content (Json.obj [("mean", Json.obj [("point_estimate", Json.num 5)])]))]] =
        .ok results :=
  C1_amended_no_raise.1 _ (by with_unfolding_all rfl)

/-- Generic invariant preservation along `List.foldlM` over `Except`. -/
theorem foldlM_preserve {σ τ : Type} (P : σ → Prop) (Q : τ → Bool)
    (f : σ → τ → Except PyErr σ)
    (hstep : ∀ s t s', Q t = true → P s → f s t = .ok s' → P s') :
    ∀ (l : List τ) (s s' : σ), (∀ t ∈ l, Q t = true) → P s →
      l.foldlM f s = .ok s' → P s' := by
  intro l
  induction l with
  | nil =>
      intro s s' _ hP h
      simp only [List.foldlM_nil] at h
      cases h
      exact hP
  | cons t rest ih =>
      intro s s' hQ hP h
      rw [List.foldlM_cons] at h
      cases hft : f s t with
      | error e =>
          rw [hft, except_bind_error] at h
          exact Except.noConfusion h
      | ok s1 =>
          rw [hft, except_bind_ok] at h
          exact ih s1 s' (fun q hq => hQ q (List.mem_cons_of_mem _ hq))
            (hstep s t s1 (hQ t (by simp)) hP hft) h

/-- Check that a recorded value is a non-negative JSON number. -/
def jsonNonnegNum : Json → Bool
  | .num q => decide (0 ≤ q)
  | _ => false

/-- Condition on a decoded record: whenever the extraction
`data["mean"]["point_estimate"]` would succeed, the extracted value is a
non-negative number. -/
def contentValuesOk : Json → Bool
  | .obj fields =>
      match lookupA fields "mean" with
      | some (.obj m) =>
          (match lookupA m "point_estimate" with
           | some v => jsonNonnegNum v
           | none => true)
      | some _ => true
      | none => true
  | _ => true

/-- Leaf-wise value condition. -/
def paramValuesOk : ParamEntry → Bool
  | .dir _ (.content j) => contentValuesOk j
  | _ => true

/-- Bench-wise value condition. -/
def benchValuesOk : BenchEntry → Bool
  | .dir _ params => params.all paramValuesOk
  | _ => true

/-- Tree-wise value condition. -/
def treeValuesOk (entries : List BenchEntry) : Bool := entries.all benchValuesOk

/-- Invariant: every value recorded anywhere in the result dict is a
non-negative JSON number. -/
def valuesOkRS (rs : JResultSet) : Prop :=
  ∀ p ∈ rs, ∀ q ∈ p.2, jsonNonnegNum q.2 = true

theorem recordResult_valuesOk {rs : JResultSet} {b pn : String} {v : Json}
    (h : valuesOkRS rs) (hv : jsonNonnegNum v = true) :
    valuesOkRS (recordResult rs b pn v) := by
  rw [recordResult_eq]
  cases hl : lookupA rs b with
  | none =>
      intro p hp q hq
      rcases List.mem_append.mp hp with hp | hp
      · exact h p hp q hq
      · have hp' : p = (b, [(pn, v)]) := by simpa using hp
        subst hp'
        have hq' : q = (pn, v) := by simpa using hq
        subst hq'
        exact hv
  | some inner =>
      intro p hp q hq
      rcases mem_updateA hp with hp | hp
      · subst hp
        rcases mem_updateA hq with hq | hq
        · rw [hq]; exact hv
        · exact h (b, inner) (lookupA_mem hl) q hq
      · exact h p hp q hq

theorem processParam_valuesOk (bench : String) :
    ∀ (rs : JResultSet) (p : ParamEntry) (rs' : JResultSet),
      paramValuesOk p = true → valuesOkRS rs →
      processParam bench rs p = .ok rs' → valuesOkRS rs' := by
  intro rs p rs' hQ hP h
  cases p with
  | file pname => cases h; exact hP
  | dir pname est =>
      cases est with
      | absent => cases h; exact hP
      | decodeError => cases h; exact hP
      | content j =>
          cases j with
          | obj fields =>
              simp only [paramValuesOk, contentValuesOk] at hQ
              cases hm : lookupA fields "mean" with
              | none =>
                  simp only [processParam, jsonIndex, hm] at h
                  cases h; exact hP
              | some m =>
                  rw [hm] at hQ
                  cases m with
                  | obj mfields =>
                      have hQ2 :
                          (match lookupA mfields "point_estimate" with
                           | some v => jsonNonnegNum v
                           | none => true) = true := hQ
                      cases hpe : lookupA mfields "point_estimate" with
                      | none =>
                          simp only [processParam, jsonIndex, hm, hpe] at h
                          cases h; exact hP
                      | some v =>
                          rw [hpe] at hQ2
                          simp only [processParam, jsonIndex, hm, hpe] at h
                          cases h
                          exact recordResult_valuesOk hP hQ2
                  | null =>
                      simp only [processParam, jsonIndex, hm] at h
                      exact Except.noConfusion h
                  | bool b =>
                      simp only [processParam, jsonIndex, hm] at h
                      exact Except.noConfusion h
                  | num q =>
                      simp only [processParam, jsonIndex, hm] at h
                      exact Except.noConfusion h
                  | str s =>
                      simp only [processParam, jsonIndex, hm] at h
                      exact Except.noConfusion h
                  | arr items =>
                      simp only [processParam, jsonIndex, hm] at h
                      exact Except.noConfusion h
          | null =>
              simp only [processParam, jsonIndex] at h
              exact Except.noConfusion h
          | bool b =>
              simp only [processParam, jsonIndex] at h
              exact Except.noConfusion h
          | num q =>
              simp only [processParam, jsonIndex] at h
              exact Except.noConfusion h
          | str s =>
              simp only [processParam, jsonIndex] at h
              exact Except.noConfusion h
          | arr items =>
              simp only [processParam, jsonIndex] at h
              exact Except.noConfusion h

theorem processBench_valuesOk :
    ∀ (rs : JResultSet) (b : BenchEntry) (rs' : JResultSet),
      benchValuesOk b = true → valuesOkRS rs →
      processBench rs b = .ok rs' → valuesOkRS rs' := by
  intro rs b rs' hQ hP h
  cases b with
  | file bname => cases h; exact hP
  | dir bname params =>
      simp only [benchValuesOk, List.all_eq_true] at hQ
      exact foldlM_preserve valuesOkRS paramValuesOk (processParam bname)
        (processParam_valuesOk bname) params rs rs' hQ hP h

/-- Counterexample to claim C2 as stated: a record whose
`mean.point_estimate` member is the JSON string `"oops"` is recorded as-is,
so the stored mean is not a number at all (and a record carrying `-5` would
be recorded negative); the code performs no validation of the value. -/
theorem C2_counterexample :
    parse_criterion_results
        [.dir "b" [.dir "10" (.content
          (Json.obj [("mean", Json.obj [("point_estimate", Json.str "oops")])]))]] =
      .ok [("b", [("10", Json.str "oops")])] ∧
    jsonNonnegNum (Json.str "oops") = false := by
  constructor
  · with_unfolding_all rfl
  · rfl

/-- Claim C2, amended: the value recorded for a (benchmark, parameter) pair
is exactly the record's `mean.point_estimate` member, unvalidated; hence
every recorded entry is a non-negative number provided every extractable
`point_estimate` in the input tree is a non-negative number (and not
otherwise). -/
theorem C2_amended_values_nonneg (entries : List BenchEntry) (rs : JResultSet)
    (hQ : treeValuesOk entries = true)
    (h : parse_criterion_results entries = .ok rs) :
    ∀ p ∈ rs, ∀ q ∈ p.2, ∃ x : ℚ, q.2 = Json.num x ∧ 0 ≤ x := by
  have hvals : valuesOkRS rs := by
    simp only [treeValuesOk, List.all_eq_true] at hQ
    exact foldlM_preserve valuesOkRS benchValuesOk processBench
      processBench_valuesOk entries [] rs hQ (by intro p hp; simp at hp) h
  intro p hp q hq
  have := hvals p hp q hq
  cases hv : q.2 with
  | num x =>
      rw [hv] at this
      simp only [jsonNonnegNum, decide_eq_true_eq] at this
      exact ⟨x, rfl, this⟩
  | null => rw [hv] at this; simp [jsonNonnegNum] at this
  | bool b => rw [hv] at this; simp [jsonNonnegNum] at this
  | str s => rw [hv] at this; simp [jsonNonnegNum] at this
  | arr items => rw [hv] at this; simp [jsonNonnegNum] at this
  | obj fields => rw [hv] at this; simp [jsonNonnegNum] at this

/-- Witness for C2: the amended theorem applied to a concrete tree with a
well-formed non-negative record, evaluated at its one recorded entry. -/
theorem C2_witness :
    ∃ x : ℚ, ("10", Json.num 5).2 = Json.num x ∧ 0 ≤ x :=
  C2_amended_values_nonneg
    [.dir "b" [.dir "10" (.content
      (Json.obj [("mean", Json.obj [("point_estimate", Json.num 5)])]))]]
    [("b", [("10", Json.num 5)])]
    (by with_unfolding_all rfl)
    (by with_unfolding_all rfl)
    ("b", [("10", Json.num 5)]) (by simp)
    ("10", Json.num 5) (by simp)

/-- Invariant: every benchmark recorded in the result dict carries a
non-empty parameter dict. -/
def innerNonemptyRS (rs : JResultSet) : Prop :=
  ∀ p ∈ rs, p.2 ≠ []

theorem recordResult_innerNonempty {rs : JResultSet} {b pn : String} {v : Json}
    (h : innerNonemptyRS rs) : innerNonemptyRS (recordResult rs b pn v) := by
  rw [recordResult_eq]
  cases hl : lookupA rs b with
  | none =>
      intro p hp
      rcases List.mem_append.mp hp with hp | hp
      · exact h p hp
      · have hp' : p = (b, [(pn, v)]) := by simpa using hp
        subst hp'
        simp
  | some inner =>
      intro p hp
      rcases mem_updateA hp with hp | hp
      · subst hp
        exact updateA_ne_nil _ _ _
      · exact h p hp

theorem processParam_innerNonempty (bench : String) :
    ∀ (rs : JResultSet) (p : ParamEntry) (rs' : JResultSet),
      (fun _ : ParamEntry => true) p = true → innerNonemptyRS rs →
      processParam bench rs p = .ok rs' → innerNonemptyRS rs' := by
  intro rs p rs' _ hP h
  cases p with
  | file pname => cases h; exact hP
  | dir pname est =>
      cases est with
      | absent => cases h; exact hP
      | decodeError => cases h; exact hP
      | content j =>
          cases hm : jsonIndex j "mean" with
          | error e =>
              cases e <;> simp only [processParam, hm] at h <;>
                first
                | (cases h; exact hP)
                | exact Except.noConfusion h
          | ok m =>
              cases hpe : jsonIndex m "point_estimate" with
              | error e =>
                  cases e <;> simp only [processParam, hm, hpe] at h <;>
                    first
                    | (cases h; exact hP)
                    | exact Except.noConfusion h
              | ok v =>
                  simp only [processParam, hm, hpe] at h
                  cases h
                  exact recordResult_innerNonempty hP

theorem processBench_innerNonempty :
    ∀ (rs : JResultSet) (b : BenchEntry) (rs' : JResultSet),
      (fun _ : BenchEntry => true) b = true → innerNonemptyRS rs →
      processBench rs b = .ok rs' → innerNonemptyRS rs' := by
  intro rs b rs' _ hP h
  cases b with
  | file bname => cases h; exact hP
  | dir bname params =>
      exact foldlM_preserve innerNonemptyRS (fun _ => true) (processParam bname)
        (processParam_innerNonempty bname) params rs rs' (fun _ _ => rfl) hP h

/-- Claim C10: in every ResultSet produced by `parse_criterion_results`,
every benchmark name maps to a non-empty parameter dict (an entry is
created only when a value is being recorded), and consequently, for the
downstream builders, a family being absent (`lookupA` yields `none`) and
its `.get(key, {})` view being empty coincide. -/
theorem C10_inner_nonempty (entries : List BenchEntry) (rs : JResultSet)
    (h : parse_criterion_results entries = .ok rs) :
    (∀ p ∈ rs, p.2 ≠ []) ∧
    (∀ key : String, ((lookupA rs key).getD []).isEmpty = (lookupA rs key).isNone) := by
  have hinv : innerNonemptyRS rs :=
    foldlM_preserve innerNonemptyRS (fun _ => true) processBench
      processBench_innerNonempty entries [] rs (fun _ _ => rfl)
      (by intro p hp; simp at hp) h
  refine ⟨hinv, ?_⟩
  intro key
  cases hl : lookupA rs key with
  | none => rfl
  | some inner =>
      have : inner ≠ [] := hinv (key, inner) (lookupA_mem hl)
      simp [List.isEmpty_iff, this]

/-- Witness for C10 at a concrete one-leaf tree, evaluated at its one
benchmark entry and at a key absent from it. -/
theorem C10_witness :
    [("10", Json.num 5)] ≠ ([] : List (String × Json)) ∧
    ((lookupA [("b", [("10", Json.num 5)])] "x").getD []).isEmpty =
      (lookupA [("b", [("10", Json.num 5)])] "x").isNone := by
  have h := C10_inner_nonempty
    [.dir "b" [.dir "10" (.content
      (Json.obj [("mean", Json.obj [("point_estimate", Json.num 5)])]))]]
    [("b", [("10", Json.num 5)])]
    (by with_unfolding_all rfl)
  exact ⟨h.1 ("b", [("10", Json.num 5)]) (by simp), h.2 "x"⟩

/-! ### Archive content layout (claim C7) -/

/-- Detect three consecutive newline characters (two blank lines in a row). -/
def hasTripleNewline : List Char → Bool
  | '\n' :: '\n' :: '\n' :: _ => true
  | _ :: rest => hasTripleNewline rest
  | [] => false

theorem head?_dropWhile_not {p : Char → Bool} :
    ∀ (l : List Char) (c : Char), (l.dropWhile p).head? = some c → p c = false := by
  intro l
  induction l with
  | nil => intro c h; simp at h
  | cons a rest ih =>
      intro c h
      by_cases hp : p a = true
      · rw [List.dropWhile_cons_of_pos hp] at h
        exact ih c h
      · rw [List.dropWhile_cons_of_neg hp] at h
        simp at h
        rw [← h]
        simpa using hp

theorem rstripChars_getLast_not_space {cs : List Char} {c : Char}
    (h : (rstripChars cs).getLast? = some c) : pyIsSpace c = false := by
  unfold rstripChars at h
  rw [List.getLast?_reverse] at h
  exact head?_dropWhile_not _ c h

theorem rstripChars_ne_nil {cs : List Char} {c : Char}
    (hc : c ∈ cs) (hns : pyIsSpace c = false) : rstripChars cs ≠ [] := by
  unfold rstripChars
  intro h
  rw [List.reverse_eq_nil_iff, List.dropWhile_eq_nil_iff] at h
  have := h c (List.mem_reverse.mpr hc)
  rw [hns] at this
  exact Bool.noConfusion this

/-- Counterexample to claim C7 as stated: on a one-benchmark ResultSet the
persisted archive content separates the title line from the all-operations
section with two blank lines (three consecutive newlines), not exactly one
blank line. -/
theorem C7_counterexample :
    archiveContent [("b", [("10", (500 : ℚ))])] =
      .ok "# Helix Benchmark Results\n\n\n## All Operations\n\n| Benchmark | 10 files |\n|-----------|----------|\n| B         |   500 ns |\n" ∧
    hasTripleNewline
      ("# Helix Benchmark Results\n\n\n## All Operations\n\n| Benchmark | 10 files |\n|-----------|----------|\n| B         |   500 ns |\n").data = true := by
  constructor
  · with_unfolding_all rfl
  · with_unfolding_all rfl

theorem mem_data_pyJoin_head (sep a : String) (l : List String) {c : Char}
    (hc : c ∈ a.data) : c ∈ (pyJoin sep (a :: l)).data := by
  obtain ⟨t, ht⟩ := pyJoin_cons_exists sep a l
  rw [ht, String.data_append]
  exact List.mem_append.mpr (Or.inl hc)

theorem archive_shape (w : String) (hmem : '#' ∈ w.data) :
    ∃ l, (pyRstrip w ++ "\n").data = l ++ ['\n'] ∧ l ≠ [] ∧
      ∀ c, l.getLast? = some c → pyIsSpace c = false := by
  refine ⟨rstripChars w.data, ?_, ?_, ?_⟩
  · rw [String.data_append]
    rfl
  · exact rstripChars_ne_nil hmem (by rfl)
  · intro c hcl
    exact rstripChars_getLast_not_space hcl

set_option maxRecDepth 8192 in
/-- Claim C7, amended: the archive content is the title line, then the
all-operations section, then optionally the comparison and summary
sections, with adjacent sections separated by exactly two blank lines (not
one); trailing whitespace is trimmed and the file ends with exactly one
trailing newline.  First conjunct: every successful archive content splits
as a non-empty prefix ending in a non-whitespace character followed by
exactly one final newline.  Second conjunct: the full layout on a ResultSet
that produces all sections. -/
theorem C7_amended_archive_layout :
    (∀ (results : ResultSet) (s : String), archiveContent results = .ok s →
      ∃ l, s.data = l ++ ['\n'] ∧ l ≠ [] ∧
        ∀ c, l.getLast? = some c → pyIsSpace c = false) ∧
    archiveContent [("git_status_baseline", [("10", (100 : ℚ))]),
                    ("helix_index_cached_run", [("10", (50 : ℚ))])] =
      .ok "# Helix Benchmark Results\n\n\n## All Operations\n\n| Benchmark              | 10 files |\n|------------------------|----------|\n| Git Status Baseline    |   100 ns |\n| Helix Index Cached Run |    50 ns |\n\n\n## Performance Comparison\n\n| Operation             | Time   | vs Git      |   |\n|-----------------------|--------|-------------|---|\n| Git status (10 files) | 100 ns | -           | - |\n|   Helix (cached)      | 50 ns  | 2.0x faster | ⚡ |\n\n\n## Summary Statistics\n\n**Average speedup (cached):** 2.0x faster than git\n" := by
  constructor
  · intro results s h
    unfold archiveContent at h
    cases hc : build_comparison_table results with
    | error e =>
        rw [hc, except_bind_error] at h
        exact Except.noConfusion h
    | ok comp =>
        rw [hc, except_bind_ok] at h
        have hs : s = pyRstrip (pyJoin "\n\n"
            ((["# Helix Benchmark Results\n",
               "## All Operations\n\n" ++ build_aligned_table results] ++
              (if comp = "" then [] else ["\n" ++ comp])) ++
              (if build_summary_stats results = "" then []
               else ["\n" ++ build_summary_stats results]))) ++ "\n" := by
          cases h
          rfl
        rw [hs]
        apply archive_shape
        exact mem_data_pyJoin_head "\n\n" "# Helix Benchmark Results\n" _ (by decide)
  · with_unfolding_all rfl

/-- Witness for C8's amended theorem at a concrete non-empty ResultSet. -/
theorem C8_witness :
    build_aligned_table [("b", [("10", (500 : ℚ))])] ≠ "" :=
  C8_amended_table_never_empty [("b", [("10", (500 : ℚ))])]

set_option maxRecDepth 8192 in
/-- Witness for C7: the amended theorem's layout clause applied to the
archive content of a concrete one-benchmark ResultSet. -/
theorem C7_witness :
    ∃ l, ("# Helix Benchmark Results\n\n\n## All Operations\n\n| Benchmark | 10 files |\n|-----------|----------|\n| B         |   500 ns |\n" : String).data = l ++ ['\n'] ∧ l ≠ [] ∧
      ∀ c, l.getLast? = some c → pyIsSpace c = false :=
  C7_amended_archive_layout.1 [("b", [("10", (500 : ℚ))])]
    "# Helix Benchmark Results\n\n\n## All Operations\n\n| Benchmark | 10 files |\n|-----------|----------|\n| B         |   500 ns |\n"
    (by with_unfolding_all rfl)

/-! ### Name Formatter idempotence (claim C9) -/

theorem toUpperA_eq_of_lower {c : Char} (h : isLowerA c = true) :
    toUpperA c = Char.ofNat (c.toNat - 32) := by
  simp [toUpperA, h]

theorem isLowerA_toUpperA (c : Char) : isLowerA (toUpperA c) = false := by
  by_cases h : isLowerA c = true
  · rw [toUpperA_eq_of_lower h]
    simp only [isLowerA, Bool.and_eq_true, decide_eq_true_eq] at h
    obtain ⟨h1, h2⟩ := h
    set m := c.toNat with hm
    interval_cases m <;> decide
  · simp only [toUpperA, h, if_false]
    simpa using h

theorem toUpperA_toUpperA (c : Char) : toUpperA (toUpperA c) = toUpperA c := by
  rw [toUpperA, isLowerA_toUpperA]
  simp

theorem isUpperA_toLowerA (c : Char) : isUpperA (toLowerA c) = false := by
  by_cases h : isUpperA c = true
  · simp only [toLowerA, h, if_true]
    simp only [isUpperA, Bool.and_eq_true, decide_eq_true_eq] at h
    obtain ⟨h1, h2⟩ := h
    set m := c.toNat with hm
    interval_cases m <;> decide
  · simp only [toLowerA, h, if_false]
    simpa using h

theorem toLowerA_toLowerA (c : Char) : toLowerA (toLowerA c) = toLowerA c := by
  rw [toLowerA, isUpperA_toLowerA]
  simp

theorem asciiAlpha_toUpperA {c : Char} (h : asciiAlpha c = true) :
    asciiAlpha (toUpperA c) = true := by
  by_cases hl : isLowerA c = true
  · rw [toUpperA_eq_of_lower hl]
    simp only [isLowerA, Bool.and_eq_true, decide_eq_true_eq] at hl
    obtain ⟨h1, h2⟩ := hl
    set m := c.toNat with hm
    interval_cases m <;> decide
  · simpa [toUpperA, hl] using h

theorem asciiAlpha_toLowerA {c : Char} (h : asciiAlpha c = true) :
    asciiAlpha (toLowerA c) = true := by
  by_cases hu : isUpperA c = true
  · simp only [toLowerA, hu, if_true]
    simp only [isUpperA, Bool.and_eq_true, decide_eq_true_eq] at hu
    obtain ⟨h1, h2⟩ := hu
    set m := c.toNat with hm
    interval_cases m <;> decide
  · simpa [toLowerA, hu] using h

theorem toUpperA_ne_underscore {c : Char} (h : c ≠ '_') : toUpperA c ≠ '_' := by
  by_cases hl : isLowerA c = true
  · rw [toUpperA_eq_of_lower hl]
    simp only [isLowerA, Bool.and_eq_true, decide_eq_true_eq] at hl
    obtain ⟨h1, h2⟩ := hl
    set m := c.toNat with hm
    interval_cases m <;> decide
  · simpa [toUpperA, hl] using h

theorem toLowerA_ne_underscore {c : Char} (h : c ≠ '_') : toLowerA c ≠ '_' := by
  by_cases hu : isUpperA c = true
  · simp only [toLowerA, hu, if_true]
    simp only [isUpperA, Bool.and_eq_true, decide_eq_true_eq] at hu
    obtain ⟨h1, h2⟩ := hu
    set m := c.toNat with hm
    interval_cases m <;> decide
  · simpa [toLowerA, hu] using h

theorem titleChars_idem (cs : List Char) :
    ∀ b, titleChars b (titleChars b cs) = titleChars b cs := by
  induction cs with
  | nil => intro b; rfl
  | cons c rest ih =>
      intro b
      by_cases ha : asciiAlpha c = true
      · cases b
        · have hd : asciiAlpha (toUpperA c) = true := asciiAlpha_toUpperA ha
          simp [titleChars, ha, hd, toUpperA_toUpperA, ih]
        · have hd : asciiAlpha (toLowerA c) = true := asciiAlpha_toLowerA ha
          simp [titleChars, ha, hd, toLowerA_toLowerA, ih]
      · simp [titleChars, ha, ih]

theorem underscore_not_mem_titleChars {cs : List Char} (h : '_' ∉ cs) :
    ∀ b, '_' ∉ titleChars b cs := by
  induction cs with
  | nil => intro b; simp [titleChars]
  | cons c rest ih =>
      intro b
      have hc : c ≠ '_' := by
        intro he
        apply h
        rw [← he]
        exact List.mem_cons_self c rest
      have hrest : '_' ∉ rest := fun hm => h (List.mem_cons_of_mem _ hm)
      by_cases ha : asciiAlpha c = true
      · cases b
        · simp only [titleChars, ha, if_true, Bool.false_eq_true, if_false]
          intro hmem
          rcases List.mem_cons.mp hmem with hm | hm
          · exact toUpperA_ne_underscore hc hm.symm
          · exact ih hrest true hm
        · simp only [titleChars, ha, if_true]
          intro hmem
          rcases List.mem_cons.mp hmem with hm | hm
          · exact toLowerA_ne_underscore hc hm.symm
          · exact ih hrest true hm
      · simp only [titleChars, ha, if_false, Bool.false_eq_true]
        intro hmem
        rcases List.mem_cons.mp hmem with hm | hm
        · exact hc hm.symm
        · exact ih hrest false hm

theorem title_no_lower_key (s : String) (key : String) (k0 : Char) (krest : List Char)
    (hk : key.data = k0 :: krest) (hlow : isLowerA k0 = true) :
    pyStartswith (pyTitle s) key = false := by
  unfold pyStartswith pyTitle
  rw [hk]
  show (k0 :: krest).isPrefixOf (titleChars false s.data) = false
  cases hs : s.data with
  | nil => rfl
  | cons c rest =>
      by_cases ha : asciiAlpha c = true
      · have hne : (k0 == toUpperA c) = false := by
          rw [beq_eq_false_iff_ne]
          intro he
          have hlu := isLowerA_toUpperA c
          rw [← he, hlow] at hlu
          exact Bool.noConfusion hlu
        simp [titleChars, ha, List.isPrefixOf, hne]
      · have hne : (k0 == c) = false := by
          rw [beq_eq_false_iff_ne]
          intro he
          apply ha
          rw [← he]
          simp [asciiAlpha, hlow]
        simp [titleChars, ha, List.isPrefixOf, hne]

theorem applyReplacements_id_of_no_match (tbl : List (String × String)) (d : String)
    (h : ∀ kv ∈ tbl, pyStartswith d kv.1 = false) : applyReplacements tbl d = d := by
  induction tbl with
  | nil => rfl
  | cons kv rest ih =>
      obtain ⟨old, new⟩ := kv
      have h0 : pyStartswith d old = false := h (old, new) (by simp)
      simp only [applyReplacements, h0, Bool.false_eq_true, if_false]
      exact ih fun q hq => h q (List.mem_cons_of_mem _ hq)

theorem pyReplaceUnderscore_no_underscore (s : String) :
    '_' ∉ (pyReplaceUnderscore s).data := by
  show '_' ∉ s.data.map (fun c => if c = '_' then ' ' else c)
  intro hmem
  obtain ⟨c, _, he⟩ := List.mem_map.mp hmem
  by_cases hc : c = '_'
  · rw [if_pos hc] at he
    exact absurd he (by decide)
  · rw [if_neg hc] at he
    exact hc he

theorem pyReplaceUnderscore_id_of_no_underscore {s : String} (h : '_' ∉ s.data) :
    pyReplaceUnderscore s = s := by
  cases s with
  | mk data =>
      show (⟨data.map (fun c => if c = '_' then ' ' else c)⟩ : String) = ⟨data⟩
      congr 1
      have hall : ∀ c ∈ data, (if c = '_' then ' ' else c) = c := by
        intro c hc
        rw [if_neg]
        intro he
        exact h (he ▸ hc)
      rw [List.map_congr_left hall]
      exact List.map_id data

/-- Claim C9: for every input identifier with no recognized prefix (no
entry of the `replacements` table is a prefix of the identifier once
underscores are replaced by spaces), `format_benchmark_name` is idempotent:
re-applying it to its own output returns that output unchanged. -/
theorem C9_formatter_idempotent (name : String)
    (h : ∀ kv ∈ replacements, pyStartswith (pyReplaceUnderscore name) kv.1 = false) :
    format_benchmark_name (format_benchmark_name name) = format_benchmark_name name := by
  have hinner : format_benchmark_name name = pyTitle (pyReplaceUnderscore name) := by
    show pyTitle (applyReplacements replacements (pyReplaceUnderscore name)) =
      pyTitle (pyReplaceUnderscore name)
    rw [applyReplacements_id_of_no_match _ _ h]
  have hnounder : '_' ∉ (pyTitle (pyReplaceUnderscore name)).data :=
    underscore_not_mem_titleChars (pyReplaceUnderscore_no_underscore name) false
  have hkeys : ∀ kv ∈ replacements,
      pyStartswith (pyTitle (pyReplaceUnderscore name)) kv.1 = false := by
    intro kv hkv
    fin_cases hkv
    · exact title_no_lower_key _ "helix index" 'h' "elix index".data rfl (by decide)
    · exact title_no_lower_key _ "git status" 'g' "it status".data rfl (by decide)
    · exact title_no_lower_key _ "query staged" 'q' "uery staged".data rfl (by decide)
    · exact title_no_lower_key _ "index read" 'i' "ndex read".data rfl (by decide)
  rw [hinner]
  show pyTitle (applyReplacements replacements
      (pyReplaceUnderscore (pyTitle (pyReplaceUnderscore name)))) =
    pyTitle (pyReplaceUnderscore name)
  rw [pyReplaceUnderscore_id_of_no_underscore hnounder,
    applyReplacements_id_of_no_match _ _ hkeys]
  show (⟨titleChars false (titleChars false (pyReplaceUnderscore name).data)⟩ : String) =
    (⟨titleChars false (pyReplaceUnderscore name).data⟩ : String)
  exact congrArg String.mk (titleChars_idem (pyReplaceUnderscore name).data false)

/-- Witness for C9 at the concrete identifier `"status_check"`, which has no
recognized prefix. -/
theorem C9_witness :
    format_benchmark_name (format_benchmark_name "status_check") =
      format_benchmark_name "status_check" :=
  C9_formatter_idempotent "status_check" (by decide)

/-! ### Archive versioning (claim C6) -/

theorem natReprAux_one {f n : Nat} (hf : 0 < f) (hn : n < 10) :
    natReprAux f n = [Nat.digitChar n] := by
  cases f with
  | zero => omega
  | succ f' => simp [natReprAux, hn]

theorem natReprAux_two {f n : Nat} (hf : 1 < f) (h10 : 10 ≤ n) (hn : n < 100) :
    natReprAux f n = [Nat.digitChar (n / 10), Nat.digitChar (n % 10)] := by
  cases f with
  | zero => omega
  | succ f' =>
      have hten : ¬ n < 10 := by omega
      simp only [natReprAux, hten, if_false]
      rw [natReprAux_one (by omega) (by omega)]
      rfl

theorem natReprAux_three {f n : Nat} (hf : 2 < f) (h100 : 100 ≤ n) (hn : n < 1000) :
    natReprAux f n =
      [Nat.digitChar (n / 100), Nat.digitChar (n / 10 % 10), Nat.digitChar (n % 10)] := by
  cases f with
  | zero => omega
  | succ f' =>
      have hten : ¬ n < 10 := by omega
      simp only [natReprAux, hten, if_false]
      rw [natReprAux_two (by omega) (by omega) (by omega)]
      rw [Nat.div_div_eq_div_mul]
      rfl

theorem pyFormat03_data {n : Nat} (hn : n ≤ 999) :
    (pyFormat03 n).data =
      [Nat.digitChar (n / 100), Nat.digitChar (n / 10 % 10), Nat.digitChar (n % 10)] := by
  unfold pyFormat03 padLeftZeros natRepr
  by_cases h1 : n < 10
  · rw [natReprAux_one (by omega) h1]
    have e1 : n / 100 = 0 := by omega
    have e2 : n / 10 % 10 = 0 := by omega
    have e3 : n % 10 = n := by omega
    rw [e1, e2, e3]
    rfl
  · by_cases h2 : n < 100
    · rw [natReprAux_two (by omega) (by omega) h2]
      have e1 : n / 100 = 0 := by omega
      have e2 : n / 10 % 10 = n / 10 := by omega
      rw [e1, e2]
      rfl
    · rw [natReprAux_three (by omega) (by omega) (by omega)]
      rfl

theorem digitChar_toNat {d : Nat} (hd : d ≤ 9) : (Nat.digitChar d).toNat = 48 + d := by
  interval_cases d <;> decide

theorem digitChar_isDigit {d : Nat} (hd : d ≤ 9) : (Nat.digitChar d).isDigit = true := by
  interval_cases d <;> decide

theorem digitChar_ne_dash {d : Nat} (hd : d ≤ 9) : Nat.digitChar d ≠ '-' := by
  interval_cases d <;> decide

theorem lexLe_refl (cs : List Char) : lexLe cs cs = true := by
  induction cs with
  | nil => rfl
  | cons a rest ih => simp [lexLe, ih]

theorem lexLe_total (xs : List Char) : ∀ ys, lexLe xs ys = true ∨ lexLe ys xs = true := by
  induction xs with
  | nil => intro ys; exact Or.inl rfl
  | cons a as ih =>
      intro ys
      cases ys with
      | nil => exact Or.inr rfl
      | cons b bs =>
          by_cases h1 : a.toNat < b.toNat
          · exact Or.inl (by simp [lexLe, h1])
          · by_cases h2 : b.toNat < a.toNat
            · exact Or.inr (by simp [lexLe, h2])
            · rcases ih bs with h | h
              · exact Or.inl (by simp [lexLe, h1, h2, h])
              · exact Or.inr (by simp [lexLe, h1, h2, h])

theorem lexLe_trans (xs : List Char) :
    ∀ ys zs, lexLe xs ys = true → lexLe ys zs = true → lexLe xs zs = true := by
  induction xs with
  | nil => intro ys zs _ _; rfl
  | cons a as ih =>
      intro ys zs hxy hyz
      cases ys with
      | nil => simp [lexLe] at hxy
      | cons b bs =>
          cases zs with
          | nil => simp [lexLe] at hyz
          | cons c cs =>
              by_cases h2 : b.toNat < c.toNat
              · by_cases h1 : a.toNat < b.toNat
                · simp [lexLe, show a.toNat < c.toNat by omega]
                · by_cases h1' : b.toNat < a.toNat
                  · simp [lexLe, h1, h1'] at hxy
                  · simp [lexLe, show a.toNat < c.toNat by omega]
              · by_cases h3 : c.toNat < b.toNat
                · simp [lexLe, h2, h3] at hyz
                · have hbc : b.toNat = c.toNat := by omega
                  by_cases h1 : a.toNat < b.toNat
                  · simp [lexLe, show a.toNat < c.toNat by omega]
                  · by_cases h1' : b.toNat < a.toNat
                    · simp [lexLe, h1, h1'] at hxy
                    · have hxy' : lexLe as bs = true := by simpa [lexLe, h1, h1'] using hxy
                      have hyz' : lexLe bs cs = true := by simpa [lexLe, h2, h3] using hyz
                      have h4 : ¬ a.toNat < c.toNat := by omega
                      have h5 : ¬ c.toNat < a.toNat := by omega
                      simp [lexLe, h4, h5]
                      exact ih bs cs hxy' hyz'

theorem lexLe_append_same (p : List Char) (x y : List Char) :
    lexLe (p ++ x) (p ++ y) = lexLe x y := by
  induction p with
  | nil => rfl
  | cons a ps ih => simp [lexLe, ih]

theorem lexLe_digits3 {a b c a' b' c' : Nat} (ha : a ≤ 9) (hb : b ≤ 9) (hc : c ≤ 9)
    (ha' : a' ≤ 9) (hb' : b' ≤ 9) (hc' : c' ≤ 9) (s : List Char) :
    lexLe (Nat.digitChar a :: Nat.digitChar b :: Nat.digitChar c :: s)
        (Nat.digitChar a' :: Nat.digitChar b' :: Nat.digitChar c' :: s) = true ↔
      (a < a' ∨ (a = a' ∧ (b < b' ∨ (b = b' ∧ c ≤ c')))) := by
  have va := digitChar_toNat ha
  have vb := digitChar_toNat hb
  have vc := digitChar_toNat hc
  have va' := digitChar_toNat ha'
  have vb' := digitChar_toNat hb'
  have vc' := digitChar_toNat hc'
  simp only [lexLe, va, vb, vc, va', vb', vc', lexLe_refl]
  split_ifs <;> simp <;> omega

theorem canonical_le_iff (today : String) {n m : Nat} (hn : n ≤ 999) (hm : m ≤ 999) :
    strLeB (canonicalArchiveName today n) (canonicalArchiveName today m) = true ↔ n ≤ m := by
  unfold strLeB canonicalArchiveName
  rw [String.data_append, String.data_append, String.data_append,
    String.data_append, String.data_append, String.data_append,
    pyFormat03_data hn, pyFormat03_data hm]
  simp only [List.append_assoc]
  rw [lexLe_append_same, lexLe_append_same]
  simp only [List.cons_append, List.nil_append]
  rw [lexLe_digits3 (by omega) (by omega) (by omega) (by omega) (by omega) (by omega)]
  omega

theorem canonical_inj (today : String) {n m : Nat} (hn : n ≤ 999) (hm : m ≤ 999)
    (h : canonicalArchiveName today n = canonicalArchiveName today m) : n = m := by
  have h1 : strLeB (canonicalArchiveName today n) (canonicalArchiveName today m) = true := by
    rw [h]; exact lexLe_refl _
  have h2 : strLeB (canonicalArchiveName today m) (canonicalArchiveName today n) = true := by
    rw [h]; exact lexLe_refl _
  have := (canonical_le_iff today hn hm).mp h1
  have := (canonical_le_iff today hm hn).mp h2
  omega

theorem mem_insSorted {α : Type} (le : α → α → Bool) (x : α) :
    ∀ (l : List α) (y : α), y ∈ insSorted le x l ↔ y = x ∨ y ∈ l := by
  intro l
  induction l with
  | nil => intro y; simp [insSorted]
  | cons z zs ih =>
      intro y
      by_cases h : le z x = true
      · simp only [insSorted, h, if_true]
        rw [List.mem_cons, ih y, List.mem_cons]
        tauto
      · simp only [insSorted, h, Bool.false_eq_true, if_false, List.mem_cons]

theorem pairwise_insSorted {α : Type} (le : α → α → Bool)
    (htot : ∀ a b, le a b = true ∨ le b a = true)
    (htrans : ∀ a b c, le a b = true → le b c = true → le a c = true)
    (x : α) :
    ∀ l : List α, l.Pairwise (fun a b => le a b = true) →
      (insSorted le x l).Pairwise (fun a b => le a b = true) := by
  intro l
  induction l with
  | nil => intro _; simp [insSorted]
  | cons z zs ih =>
      intro h
      obtain ⟨hz, hzs⟩ := List.pairwise_cons.mp h
      by_cases hle : le z x = true
      · simp only [insSorted, hle, if_true]
        refine List.pairwise_cons.mpr ⟨?_, ih hzs⟩
        intro y hy
        rcases (mem_insSorted le x zs y).mp hy with hy | hy
        · rw [hy]; exact hle
        · exact hz y hy
      · simp only [insSorted, hle, Bool.false_eq_true, if_false]
        have hxz : le x z = true := by
          rcases htot z x with h' | h'
          · exact absurd h' hle
          · exact h'
        refine List.pairwise_cons.mpr ⟨?_, h⟩
        intro y hy
        rcases List.mem_cons.mp hy with hy | hy
        · rw [hy]; exact hxz
        · exact htrans x z y hxz (hz y hy)

theorem pySorted_mem {α : Type} (le : α → α → Bool) (l : List α) (y : α) :
    y ∈ pySorted le l ↔ y ∈ l := by
  have hgen : ∀ (l : List α) (acc : List α),
      y ∈ l.foldl (fun acc x => insSorted le x acc) acc ↔ y ∈ acc ∨ y ∈ l := by
    intro l
    induction l with
    | nil => intro acc; simp
    | cons x xs ih =>
        intro acc
        rw [List.foldl_cons, ih, mem_insSorted, List.mem_cons]
        tauto
  unfold pySorted
  rw [hgen]
  simp

theorem pySorted_pairwise {α : Type} (le : α → α → Bool)
    (htot : ∀ a b, le a b = true ∨ le b a = true)
    (htrans : ∀ a b c, le a b = true → le b c = true → le a c = true)
    (l : List α) : (pySorted le l).Pairwise (fun a b => le a b = true) := by
  have hgen : ∀ (l : List α) (acc : List α),
      acc.Pairwise (fun a b => le a b = true) →
      (l.foldl (fun acc x => insSorted le x acc) acc).Pairwise (fun a b => le a b = true) := by
    intro l
    induction l with
    | nil => intro acc h; simpa using h
    | cons x xs ih =>
        intro acc h
        rw [List.foldl_cons]
        exact ih _ (pairwise_insSorted le htot htrans x acc h)
  exact hgen l [] (by simp)

theorem pySorted_length {α : Type} (le : α → α → Bool) (l : List α) :
    (pySorted le l).length = l.length := by
  have hins : ∀ (x : α) (acc : List α), (insSorted le x acc).length = acc.length + 1 := by
    intro x acc
    induction acc with
    | nil => rfl
    | cons z zs ih =>
        by_cases h : le z x = true <;> simp [insSorted, h, ih]
  have hgen : ∀ (l : List α) (acc : List α),
      (l.foldl (fun acc x => insSorted le x acc) acc).length = acc.length + l.length := by
    intro l
    induction l with
    | nil => intro acc; simp
    | cons x xs ih =>
        intro acc
        rw [List.foldl_cons, ih, hins, List.length_cons]
        omega
  unfold pySorted
  rw [hgen]
  simp

theorem getLast?_mem_own {α : Type} :
    ∀ (l : List α) (z : α), l.getLast? = some z → z ∈ l := by
  intro l
  induction l with
  | nil => intro z h; simp at h
  | cons a rest ih =>
      intro z h
      cases rest with
      | nil =>
          simp only [List.getLast?_singleton, Option.some.injEq] at h
          simp [h]
      | cons b bs =>
          rw [List.getLast?_cons_cons] at h
          exact List.mem_cons_of_mem _ (ih z h)

theorem pairwise_getLast_max {α : Type} {R : α → α → Prop} :
    ∀ l : List α, l.Pairwise R → ∀ z, l.getLast? = some z →
      ∀ y ∈ l, y = z ∨ R y z := by
  intro l
  induction l with
  | nil => intro _ z h; simp at h
  | cons a rest ih =>
      intro hp z hz y hy
      cases rest with
      | nil =>
          simp only [List.getLast?_singleton, Option.some.injEq] at hz
          have : y = a := by simpa using hy
          exact Or.inl (by rw [this, hz])
      | cons b bs =>
          rw [List.getLast?_cons_cons] at hz
          obtain ⟨ha, hrest⟩ := List.pairwise_cons.mp hp
          rcases List.mem_cons.mp hy with hy | hy
          · right
            rw [hy]
            exact ha z (getLast?_mem_own _ z hz)
          · exact ih hrest z hz y hy

theorem pathStem_append_md (cs : List Char) (h : cs ≠ []) :
    pathStem ⟨cs ++ ['.', 'm', 'd']⟩ = ⟨cs⟩ := by
  unfold pathStem
  have hrev : (⟨cs ++ ['.', 'm', 'd']⟩ : String).data.reverse = 'd' :: 'm' :: '.' :: cs.reverse := by
    show (cs ++ ['.', 'm', 'd']).reverse = 'd' :: 'm' :: '.' :: cs.reverse
    simp
  rw [hrev]
  have htake : ('d' :: 'm' :: '.' :: cs.reverse).takeWhile (· ≠ '.') = ['d', 'm'] := by
    simp [List.takeWhile]
  have hdrop : ('d' :: 'm' :: '.' :: cs.reverse).dropWhile (· ≠ '.') = '.' :: cs.reverse := by
    simp [List.dropWhile]
  have hne : cs.reverse ≠ [] := by simpa using h
  simp only [htake, hdrop]
  simp [hne]

theorem pathStem_md (a : String) (h : a.data ≠ []) : pathStem (a ++ ".md") = a := by
  have he : a ++ ".md" = ⟨a.data ++ ['.', 'm', 'd']⟩ := by
    cases a with
    | mk data => rfl
  rw [he, pathStem_append_md a.data h]

theorem splitOnChar_ne_nil (sep : Char) : ∀ cs, splitOnChar sep cs ≠ [] := by
  intro cs
  induction cs with
  | nil => simp [splitOnChar]
  | cons c rest ih =>
      by_cases hc : c = sep
      · simp [splitOnChar, hc]
      · simp only [splitOnChar, hc, Bool.false_eq_true, if_false]
        cases hr : splitOnChar sep rest with
        | nil => exact absurd hr ih
        | cons h1 t => simp [hc, hr]

theorem splitOnChar_no_sep {sep : Char} :
    ∀ {ys : List Char}, sep ∉ ys → splitOnChar sep ys = [ys] := by
  intro ys
  induction ys with
  | nil => intro _; rfl
  | cons c rest ih =>
      intro h
      have hc : ¬ c = sep := by
        intro he
        exact h (by rw [he]; exact List.mem_cons_self _ _)
      have hrest : sep ∉ rest := fun hm => h (List.mem_cons_of_mem _ hm)
      simp [splitOnChar, hc, ih hrest]

theorem splitOnChar_length_two {sep : Char} :
    ∀ cs, sep ∈ cs → 2 ≤ (splitOnChar sep cs).length := by
  intro cs
  induction cs with
  | nil => intro h; simp at h
  | cons c rest ih =>
      intro h
      by_cases hc : c = sep
      · have hnil := splitOnChar_ne_nil sep rest
        have hlen : 1 ≤ (splitOnChar sep rest).length := by
          cases hr : splitOnChar sep rest with
          | nil => exact absurd hr hnil
          | cons a t => simp
        simp only [splitOnChar, hc, if_pos, List.length_cons]
        omega
      · have hmem : sep ∈ rest := by
          rcases List.mem_cons.mp h with h' | h'
          · exact absurd h'.symm hc
          · exact h'
        cases hr : splitOnChar sep rest with
        | nil => exact absurd hr (splitOnChar_ne_nil sep rest)
        | cons h1 t =>
            have hih := ih hmem
            rw [hr, List.length_cons] at hih
            simp only [splitOnChar, hc, Bool.false_eq_true, if_false, hr, List.length_cons]
            omega

theorem getLastD_irrel {α : Type} {l : List α} (h : l ≠ []) (d1 d2 : α) :
    l.getLastD d1 = l.getLastD d2 := by
  cases l with
  | nil => exact absurd rfl h
  | cons a rest => rw [List.getLastD_cons, List.getLastD_cons]

theorem splitOnChar_last {sep : Char} :
    ∀ (xs ys : List Char), sep ∉ ys →
      (splitOnChar sep (xs ++ sep :: ys)).getLastD [] = ys := by
  intro xs
  induction xs with
  | nil =>
      intro ys h
      show (splitOnChar sep (sep :: ys)).getLastD [] = ys
      simp only [splitOnChar, if_pos rfl, splitOnChar_no_sep h]
      rfl
  | cons x xs ih =>
      intro ys h
      show (splitOnChar sep (x :: (xs ++ sep :: ys))).getLastD [] = ys
      have hmem : sep ∈ xs ++ sep :: ys := by simp
      by_cases hx : x = sep
      · simp only [splitOnChar, hx, if_pos]
        rw [List.getLastD_cons]
        exact ih ys h
      · cases hr : splitOnChar sep (xs ++ sep :: ys) with
        | nil => exact absurd hr (splitOnChar_ne_nil sep _)
        | cons h1 t =>
            have ht : t ≠ [] := by
              have := splitOnChar_length_two _ hmem
              rw [hr, List.length_cons] at this
              intro he
              rw [he] at this
              simp at this
            have hih := ih ys h
            rw [hr, List.getLastD_cons] at hih
            simp only [splitOnChar, hx, Bool.false_eq_true, if_false, hr]
            rw [List.getLastD_cons, getLastD_irrel ht (x :: h1) h1]
            exact hih

theorem getLastD_map {α β : Type} (f : α → β) :
    ∀ (l : List α) (d1 : β) (d2 : α), l ≠ [] →
      (l.map f).getLastD d1 = f (l.getLastD d2) := by
  intro l
  induction l with
  | nil => intro d1 d2 h; exact absurd rfl h
  | cons a rest ih =>
      intro d1 d2 _
      cases rest with
      | nil => rfl
      | cons b bs =>
          rw [List.map_cons, List.getLastD_cons, List.getLastD_cons]
          exact ih (f a) a (by simp)

theorem glob_canonical (today : String) (n : Nat) :
    archiveGlobMatch today (canonicalArchiveName today n) = true := by
  unfold archiveGlobMatch canonicalArchiveName pyStartswith pyEndswith
  apply Bool.and_eq_true_iff.mpr
  constructor
  · rw [List.isPrefixOf_iff_prefix]
    simp only [String.data_append, List.append_assoc]
    rw [← List.append_assoc]
    exact List.prefix_append _ _
  · rw [List.isSuffixOf_iff_suffix]
    simp only [String.data_append]
    exact List.suffix_append _ _

theorem pyFormat03_mk (n : Nat) : (⟨(pyFormat03 n).data⟩ : String) = pyFormat03 n := by
  cases h : pyFormat03 n with
  | mk data => rfl

theorem dash_not_mem_pyFormat03 {n : Nat} (hn : n ≤ 999) :
    '-' ∉ (pyFormat03 n).data := by
  rw [pyFormat03_data hn]
  intro hmem
  rcases List.mem_cons.mp hmem with he | hmem
  · exact digitChar_ne_dash (show n / 100 ≤ 9 by omega) he.symm
  rcases List.mem_cons.mp hmem with he | hmem
  · exact digitChar_ne_dash (show n / 10 % 10 ≤ 9 by omega) he.symm
  rcases List.mem_cons.mp hmem with he | hmem
  · exact digitChar_ne_dash (show n % 10 ≤ 9 by omega) he.symm
  · simp at hmem

theorem pyIntNat_pyFormat03 {n : Nat} (hn : n ≤ 999) :
    pyIntNat (pyFormat03 n) = .ok n := by
  have hdig : pyIsDigit (pyFormat03 n) = true := by
    unfold pyIsDigit
    rw [pyFormat03_data hn]
    simp [digitChar_isDigit (show n / 100 ≤ 9 by omega),
      digitChar_isDigit (show n / 10 % 10 ≤ 9 by omega),
      digitChar_isDigit (show n % 10 ≤ 9 by omega)]
  unfold pyIntNat
  rw [hdig, if_pos rfl]
  congr 1
  rw [pyFormat03_data hn]
  unfold digitsVal
  simp only [List.foldl_cons, List.foldl_nil]
  rw [digitChar_toNat (show n / 100 ≤ 9 by omega),
    digitChar_toNat (show n / 10 % 10 ≤ 9 by omega),
    digitChar_toNat (show n % 10 ≤ 9 by omega)]
  omega

theorem parse_canonical_counter (today : String) {n : Nat} (hn : n ≤ 999) :
    pyIntNat ((pySplitOnDash (pathStem (canonicalArchiveName today n))).getLastD "") =
      .ok n := by
  have hstem : pathStem (canonicalArchiveName today n) = today ++ "-" ++ pyFormat03 n := by
    have he : canonicalArchiveName today n = (today ++ "-" ++ pyFormat03 n) ++ ".md" := rfl
    rw [he]
    apply pathStem_md
    rw [String.data_append, String.data_append]
    simp
  rw [hstem]
  have hdata : (today ++ "-" ++ pyFormat03 n).data =
      today.data ++ '-' :: (pyFormat03 n).data := by
    rw [String.data_append, String.data_append, List.append_assoc]
    rfl
  have hsplit : (pySplitOnDash (today ++ "-" ++ pyFormat03 n)).getLastD "" =
      pyFormat03 n := by
    unfold pySplitOnDash
    rw [hdata]
    rw [getLastD_map _ _ "" [] (splitOnChar_ne_nil '-' _)]
    rw [splitOnChar_last today.data (pyFormat03 n).data (dash_not_mem_pyFormat03 hn)]
  rw [hsplit]
  exact pyIntNat_pyFormat03 hn

/-- Counterexample to claim C6 as stated: with existing archives for today
carrying counters 999 and 1000 (the writer itself produces `-1000.md` after
`-999.md` on the same day), the maximum existing counter is 1000, but the
lexicographically sorted list ends at `-999.md`, so the writer chooses
counter 1000 — the name of an archive that already exists (overwriting it),
instead of `-1001.md`. -/
theorem C6_counterexample :
    findNextArchive "2024-01-01" ["2024-01-01-1000.md", "2024-01-01-999.md"] =
      .ok "2024-01-01-1000.md" ∧
    "2024-01-01-1000.md" ∈ ["2024-01-01-1000.md", "2024-01-01-999.md"] ∧
    "2024-01-01-1000.md" ≠ "2024-01-01-1001.md" := by
  refine ⟨by with_unfolding_all rfl, by simp, by decide⟩

/-- Claim C6, amended: restricted to existing archives whose counters are
all three-digit (at most 999) — the only case the counterexample forces out
— the writer takes the maximum existing counter plus one (starting at 1
when no archive for today exists), writes the counter zero-padded to three
digits, and never overwrites an existing archive.  The concrete instances
of the claim are the first and third conjuncts and the witness. -/
theorem C6_amended_versioning :
    (∀ today : String, findNextArchive today [] = .ok (canonicalArchiveName today 1)) ∧
    (∀ (today : String) (ns : List Nat) (M : Nat),
      ns ≠ [] → (∀ n ∈ ns, n ≤ 999) → M ∈ ns → (∀ n ∈ ns, n ≤ M) →
      findNextArchive today (ns.map (canonicalArchiveName today)) =
        .ok (canonicalArchiveName today (M + 1)) ∧
      canonicalArchiveName today (M + 1) ∉ ns.map (canonicalArchiveName today)) ∧
    findNextArchive "2024-01-01" ["2024-01-01-001.md", "2024-01-01-002.md"] =
      .ok "2024-01-01-003.md" := by
  refine ⟨fun today => rfl, ?_, by with_unfolding_all rfl⟩
  intro today ns M hne hbound hMmem hMmax
  have htot : ∀ a b : String, strLeB a b = true ∨ strLeB b a = true :=
    fun a b => lexLe_total a.data b.data
  have htrans : ∀ a b c : String,
      strLeB a b = true → strLeB b c = true → strLeB a c = true :=
    fun a b c hab hbc => lexLe_trans a.data b.data c.data hab hbc
  have hfilter : (ns.map (canonicalArchiveName today)).filter (archiveGlobMatch today) =
      ns.map (canonicalArchiveName today) := by
    apply List.filter_eq_self.mpr
    intro a ha
    obtain ⟨n, _, rfl⟩ := List.mem_map.mp ha
    exact glob_canonical today n
  have hlne : pySorted strLeB (ns.map (canonicalArchiveName today)) ≠ [] := by
    intro h0
    have hlen := pySorted_length strLeB (ns.map (canonicalArchiveName today))
    rw [h0] at hlen
    simp at hlen
    exact hne (List.length_eq_zero.mp hlen.symm)
  obtain ⟨z, hz⟩ : ∃ z, (pySorted strLeB (ns.map (canonicalArchiveName today))).getLast? = some z := by
    cases hz : (pySorted strLeB (ns.map (canonicalArchiveName today))).getLast? with
    | none =>
        rw [List.getLast?_eq_none_iff] at hz
        exact absurd hz hlne
    | some z => exact ⟨z, rfl⟩
  have hpw := pySorted_pairwise strLeB htot htrans (ns.map (canonicalArchiveName today))
  have hmax := pairwise_getLast_max _ hpw z hz
  have hzmem : z ∈ ns.map (canonicalArchiveName today) :=
    (pySorted_mem strLeB _ z).mp (getLast?_mem_own _ z hz)
  obtain ⟨n0, hn0mem, hn0eq⟩ := List.mem_map.mp hzmem
  have hn0M : n0 = M := by
    have hMle : M ≤ n0 := by
      have hMmem' : canonicalArchiveName today M ∈
          pySorted strLeB (ns.map (canonicalArchiveName today)) :=
        (pySorted_mem strLeB _ _).mpr (List.mem_map.mpr ⟨M, hMmem, rfl⟩)
      rcases hmax _ hMmem' with he | hle
      · rw [← hn0eq] at he
        exact le_of_eq (canonical_inj today (hbound M hMmem) (hbound n0 hn0mem) he)
      · rw [← hn0eq] at hle
        exact (canonical_le_iff today (hbound M hMmem) (hbound n0 hn0mem)).mp hle
    exact le_antisymm (hMmax n0 hn0mem) hMle
  constructor
  · simp only [findNextArchive]
    rw [hfilter, hz, ← hn0eq]
    simp only [parse_canonical_counter today (hbound n0 hn0mem)]
    rw [hn0M]
    rfl
  · intro hmem
    obtain ⟨n, hnmem, heq⟩ := List.mem_map.mp hmem
    by_cases hM : M + 1 ≤ 999
    · have hn' := canonical_inj today (hbound n hnmem) hM heq
      have := hMmax n hnmem
      omega
    · have hM999 : M = 999 := by
        have := hbound M hMmem
        omega
      have hlen1 : (canonicalArchiveName today n).data.length =
          today.data.length + 7 := by
        unfold canonicalArchiveName
        rw [String.data_append, String.data_append, String.data_append,
          pyFormat03_data (hbound n hnmem)]
        simp [List.length_append]
      have hlen2 : (canonicalArchiveName today (M + 1)).data.length =
          today.data.length + 8 := by
        rw [hM999]
        unfold canonicalArchiveName
        rw [String.data_append, String.data_append, String.data_append]
        have h1000 : (pyFormat03 (999 + 1)).data.length = 4 := by decide
        simp [List.length_append, h1000]
      rw [heq, hlen2] at hlen1
      omega

/-- Witness for C6: the amended theorem applied to existing archives with
counters 1 and 2 for date 2024-01-01, yielding `2024-01-01-003.md` without
overwriting. -/
theorem C6_witness :
    findNextArchive "2024-01-01"
        (([1, 2] : List Nat).map (canonicalArchiveName "2024-01-01")) =
      .ok (canonicalArchiveName "2024-01-01" 3) ∧
    canonicalArchiveName "2024-01-01" 3 ∉
      ([1, 2] : List Nat).map (canonicalArchiveName "2024-01-01") :=
  C6_amended_versioning.2.1 "2024-01-01" [1, 2] 2 (by simp) (by decide)
    (by decide) (by decide)
